import Mathlib

/-!
Verification development for the dito query builder and graph processor.

The JavaScript sources embedded here:
  * `QueryBuilder` (query-plan construction, query handler registry, query
    filter registry) — `src/unnamed/part_002`;
  * `GraphProcessor` (graph-write relate conversion and relation restoration)
    — `src/unnamed/part_003`.

JavaScript values are modelled by the inductive `JSVal`; stateful builder and
processor objects are modelled by explicit state passing.  External
collaborators (objection.js builder internals, `PropertyRef` internals,
`@ditojs/utils` helpers) are modelled from the spec at their interface and
are marked as such in their doc comments.
-/

/-- Model of a JavaScript value as it appears in query parameters and filter
arguments: `undef` is `undefined`, `null` is `null`, and objects keep their
fields as an insertion-ordered association list. -/
inductive JSVal where
  | undef
  | null
  | bool (b : Bool)
  | num (n : Int)
  | str (s : String)
  | arr (elems : List JSVal)
  | obj (fields : List (String × JSVal))

/-- JavaScript truthiness of a `JSVal` (used for `if (value)` style guards in
the source). -/
def jsTruthy : JSVal → Bool
  | .undef => false
  | .null => false
  | .bool b => b
  | .num n => decide (n ≠ 0)
  | .str s => decide (s ≠ "")
  | .arr _ => true
  | .obj _ => true

/-- Is this value exactly `null` (the source tests `value === null`)? -/
def jsIsNull : JSVal → Bool
  | .null => true
  | _ => false

/-- ASCII whitespace, modelling the characters of JavaScript's regexp class
`\s` that can occur in query strings. -/
def isWsChar (c : Char) : Bool :=
  c = ' ' || c = '\t' || c = '\n' || c = '\r' || c = '\x0b' || c = '\x0c'

/-- Remove a maximal whitespace suffix from a token (the `\s*` that precedes a
separator in split patterns such as `\s*:\s*` belongs to the match). -/
def trimEndWs (t : List Char) : List Char :=
  (t.reverse.dropWhile isWsChar).reverse

/-- Character-level splitter mirroring `String.prototype.split` on the regexp
patterns used by the source.  A match consists of a (trimmed) run before the
separator character `sep`, the separator itself, and a maximal run of
characters satisfying `skip` after it; `trim` is applied to each token that
ends at a separator.  The boolean argument is true while the post-separator
skip run is being consumed. -/
def splitJsAux (sep : Char) (skip : Char → Bool) (trim : List Char → List Char) :
    List Char → List Char → Bool → List (List Char)
  | [], acc, _ => [acc.reverse]
  | c :: rest, acc, skipping =>
    if c = sep then
      trim acc.reverse :: splitJsAux sep skip trim rest [] true
    else if skipping && skip c then
      splitJsAux sep skip trim rest acc true
    else
      splitJsAux sep skip trim rest (c :: acc) false

/-- Split a string with the given separator, post-separator skip class and
per-token trim, as `String.prototype.split` does on the source's patterns. -/
def splitJs (sep : Char) (skip : Char → Bool) (trim : List Char → List Char)
    (s : String) : List String :=
  (splitJsAux sep skip trim s.data [] false).map String.mk

/-- Plain `value.split(',')`. -/
def splitComma (s : String) : List String :=
  splitJs ',' (fun _ => false) (fun t => t) s

/-- Plain `value.split('=')` (used by the string branch of the `where`
handler). -/
def splitEquals (s : String) : List String :=
  splitJs '=' (fun _ => false) (fun t => t) s

/-- `value.split(/\s*,s*/)` from the `range` query handler.  Note the source's
regexp is literally `\s*,s*` — the second `s` has no backslash, so after the
comma a run of literal `s` characters is consumed, not whitespace. -/
def splitRangeValue (s : String) : List String :=
  splitJs ',' (fun c => c = 's') trimEndWs s

/-- `key.split(/\s*:\s*/)` from `parseQueryFilter`. -/
def splitColon (s : String) : List String :=
  splitJs ':' isWsChar trimEndWs s

/-- `refs.split(/\s*\|\s*/)` from `getPropertyRefs`. -/
def splitBar (s : String) : List String :=
  splitJs '|' isWsChar trimEndWs s

/-- Parse a nonempty run of decimal digits; `none` if any character is not a
digit or the list is empty. -/
def parseDigits : List Char → Nat → Option Nat
  | [], acc => some acc
  | c :: rest, acc =>
    if c.isDigit then parseDigits rest (acc * 10 + (c.toNat - '0'.toNat))
    else none

/-- Parse an optionally signed integer numeral. -/
def parseIntChars : List Char → Option Int
  | [] => none
  | '-' :: rest =>
    if rest = [] then none else (parseDigits rest 0).map (fun n => -(n : Int))
  | '+' :: rest =>
    if rest = [] then none else (parseDigits rest 0).map Int.ofNat
  | l => (parseDigits l 0).map Int.ofNat

/-- JavaScript `Number(string)` restricted to the integer numerals that occur
in query parameters: surrounding whitespace is ignored, the empty string
coerces to `0`, and a non-numeral yields `none` (NaN).  Fractional and
exponent forms are outside the inputs this development evaluates. -/
def jsStringToNumber (s : String) : Option Int :=
  let t := ((s.data.dropWhile isWsChar).reverse.dropWhile isWsChar).reverse
  if t = [] then some 0 else parseIntChars t

/-- JavaScript numeric coercion `Number(v)` for the value shapes reachable
from query parameters; `none` models NaN. -/
def jsToNumber : JSVal → Option Int
  | .num n => some n
  | .str s => jsStringToNumber s
  | .bool b => some (if b then 1 else 0)
  | .null => some 0
  | .undef => none
  | .arr _ => none
  | .obj _ => none

/-- JavaScript `isNaN(v)` for the coercions modelled by `jsToNumber`. -/
def jsIsNaN (v : JSVal) : Bool :=
  (jsToNumber v).isNone

/-- Lexicographic comparison of character lists by code point, as JavaScript
compares two strings with `<`. -/
def charListLt : List Char → List Char → Bool
  | [], [] => false
  | [], _ :: _ => true
  | _ :: _, [] => false
  | a :: as, b :: bs =>
    if a.toNat < b.toNat then true
    else if b.toNat < a.toNat then false
    else charListLt as bs

/-- JavaScript `a < b` on query-parameter values: two strings compare
lexicographically, anything else compares numerically with NaN comparisons
false.  This is the comparison the `range` handler's `end < start` performs. -/
def jsLt (a b : JSVal) : Bool :=
  match a, b with
  | .str x, .str y => charListLt x.data y.data
  | a, b =>
    match jsToNumber a, jsToNumber b with
    | some m, some n => decide (m < n)
    | _, _ => false

/-- The structured error raised during query-plan construction.  The source's
`QueryError` carries only a message string; the constructors here record the
distinct throw sites, which the spec names as error kinds. -/
inductive QueryError where
  | notAllowed (key : String)
  | invalidParameter (key : String)
  | invalidFilter (key : String)
  | invalidRange (start endv : String)
  | invalidOrder (msg : String)
  | unsupportedWhere
  | typeError
deriving DecidableEq, Repr

/-- A declarative predicate instruction `{ method, args }` as produced by the
`where` helper at the bottom of the QueryBuilder module. -/
structure WhereInstr where
  method : String
  args : List JSVal

/-- The `where(builder, ref, operator, value, method)` helper: `operator`
truthy yields `[column, operator, value]`, otherwise a defined value yields
`[column, value]`, otherwise `[column]` alone. -/
def mkWhere (columnName : String) (operator : Option String) (value : Option JSVal)
    (method : String) : WhereInstr :=
  { method := method
    args :=
      match operator with
      | some op => [.str columnName, .str op, value.getD .undef]
      | none =>
        match value with
        | some v => [.str columnName, v]
        | none => [.str columnName] }

/-- The keys present in the `queryFilters` registry after module
initialisation: the eight handwritten filters followed by every key of the
`operators` table (whose loop overwrites the handwritten `between` and
`notBetween` entries). -/
def queryFilterKeys : List String :=
  ["in", "notIn", "between", "notBetween", "null", "notNull", "empty", "notEmpty",
   "eq", "ne", "not", "lt", "lte", "gt", "gte", "like", "noteLike", "iLike", "notILike"]

/-- The `operators` table mapping filter names to SQL operator strings. -/
def operatorFor : String → Option String
  | "eq" => some "="
  | "ne" => some "!="
  | "not" => some "is not"
  | "lt" => some "<"
  | "lte" => some "<="
  | "gt" => some ">"
  | "gte" => some ">="
  | "between" => some "between"
  | "notBetween" => some "not between"
  | "like" => some "like"
  | "noteLike" => some "not like"
  | "iLike" => some "ilike"
  | "notILike" => some "not ilike"
  | _ => none

/-- `queryFilters.empty`: compiles to `column = ''`. -/
def queryFilters.empty (columnName : String) : WhereInstr :=
  mkWhere columnName (some "=") (some (.str "")) "where"

/-- `queryFilters.notEmpty`: compiles to `column > ''`. -/
def queryFilters.notEmpty (columnName : String) : WhereInstr :=
  mkWhere columnName (some ">") (some (.str "")) "where"

/-- `queryFilters.null`: the null check `whereNull(column)` — no operator and
no value, so the argument list is the column alone. -/
def queryFilters.null (columnName : String) : WhereInstr :=
  mkWhere columnName none none "whereNull"

/-- `queryFilters.notNull`: `whereNotNull(column)`. -/
def queryFilters.notNull (columnName : String) : WhereInstr :=
  mkWhere columnName none none "whereNotNull"

/-- `value.split(',')` as used by the `in`/`notIn` filters; a non-string value
has no `split` method, which surfaces as a type error. -/
def jsSplitCommaVal : JSVal → Except QueryError JSVal
  | .str s => .ok (.arr ((splitComma s).map .str))
  | _ => .error .typeError

/-- Run the query filter registered under `name` on a resolved column
reference and a raw value.  The `operators` loop runs after the object
literal, so for every key of `operators` — including `between` and
`notBetween` — the registered filter is the plain comparison
`where(builder, ref, operator, value)`; only `in`, `notIn` and the null and
emptiness filters keep their handwritten definitions. -/
def runQueryFilter (name : String) (columnName : String) (value : JSVal) :
    Except QueryError WhereInstr :=
  match operatorFor name with
  | some op => .ok (mkWhere columnName (some op) (some value) "where")
  | none =>
    match name with
    | "in" => do .ok (mkWhere columnName none (some (← jsSplitCommaVal value)) "whereIn")
    | "notIn" => do .ok (mkWhere columnName none (some (← jsSplitCommaVal value)) "whereNotIn")
    | "null" => .ok (queryFilters.null columnName)
    | "notNull" => .ok (queryFilters.notNull columnName)
    | "empty" => .ok (queryFilters.empty columnName)
    | "notEmpty" => .ok (queryFilters.notEmpty columnName)
    | _ => .error (.invalidFilter name)

/-- The filter chosen by `parseQueryFilter` from the split form of the key:
one part means the implicit filter (`null` when the value is `null`, else
`eq`); two parts mean the named filter, which must exist in the registry. -/
def selectQueryFilter (key : String) (value : JSVal) : Except QueryError String :=
  let parts := splitColon key
  if parts.length = 1 then
    .ok (if jsIsNull value then "null" else "eq")
  else if parts.length = 2 then
    let name := parts.getD 1 ""
    if queryFilterKeys.contains name then .ok name
    else .error (.invalidFilter key)
  else .error (.invalidFilter key)

/-- Model-class metadata visible to the query builder: the class name, the
`defaultEager` / `defaultOrder` settings consulted by `execute`, and relation
metadata.  Modelled from the spec at the data-layer interface: the model
definition itself lives outside the embedded modules. -/
structure ModelCls where
  name : String
  defaultEager : Option String
  defaultOrder : Option (List JSVal)
  relNames : List String
  oneToOneRels : List String

/-- A `PropertyRef` as constructed by `getPropertyRefs`: the raw reference
string, the `parseDir` flag, and the allow-list argument
(`checkAllow && this._allow`).  The class itself is external to the embedded
sources, so only its construction data is modelled; resolution internals are
not needed by any claim. -/
structure PropertyRef where
  ref : String
  parseDir : Bool
  allowArg : Option (List String)
deriving DecidableEq, Repr

/-- Modelled from the spec: the relation segment of a reference — the first
path segment when the reference crosses a relation known to the model class
(PropertyRef resolution internals are external to the embedded sources). -/
def refRelationName (m : ModelCls) (ref : String) : Option String :=
  let parts := splitJs '.' (fun _ => false) (fun t => t) ref
  if parts.length ≥ 2 then
    let head := parts.getD 0 ""
    if m.relNames.contains head then some head else none
  else none

/-- Calls the builder state records against the external objection.js builder
(predicate application, pagination, joins, scope filters, ordering). -/
inductive BuilderOp where
  | applyFilter (instr : WhereInstr) (bool : String)
  | whereOrGroup (instrs : List WhereInstr)
  | limit (value : JSVal)
  | offset (value : JSVal)
  | range (start endv : JSVal)
  | joinRelation (kind : String) (relation : JSVal)
  | orderBy (args : List JSVal)
  | selectAlias (column aliasName : String)
  | propertiesExpression (kind : String) (value : JSVal)
  | applyScopeFilter (scope : JSVal)
  | first

/-- The dito `QueryBuilder` state: the own fields set up in the constructor
(`_allow`, `_propertyRefsCache`, `_applyDefaultEager`, `_applyDefaultOrder`,
`_scopes`, and the per-find `_relationsToJoin`), plus the external
objection.js builder state modelled at its interface (accumulated eager
expressions, recorded operations, and the `isFindQuery()` / `hasSelects()`
answers). -/
structure QB where
  modelCls : ModelCls
  allowRefs : Option (List String)
  propertyRefsCache : List (String × PropertyRef)
  applyDefaultEager : Bool
  applyDefaultOrder : Bool
  scopes : List JSVal
  eagerExprs : List JSVal
  relationsToJoin : List String
  ops : List BuilderOp
  isFind : Bool
  hasSel : Bool

/-- A fresh builder for a model class, as the constructor leaves it. -/
def QB.init (m : ModelCls) : QB :=
  { modelCls := m
    allowRefs := none
    propertyRefsCache := []
    applyDefaultEager := true
    applyDefaultOrder := true
    scopes := []
    eagerExprs := []
    relationsToJoin := []
    ops := []
    isFind := true
    hasSel := false }

/-- Strict equality on the primitive values that can appear as scope names
(`Array.prototype.includes` uses SameValueZero; object values compare by
reference and so are never equal to a fresh literal). -/
def jsPrimEq : JSVal → JSVal → Bool
  | .undef, .undef => true
  | .null, .null => true
  | .bool a, .bool b => a = b
  | .num a, .num b => a = b
  | .str a, .str b => a = b
  | _, _ => false

/-- `mergeScope` for a single scope value: push it unless already present. -/
def QB.mergeScope (qb : QB) (scope : JSVal) : QB :=
  if qb.scopes.any (jsPrimEq scope) then qb
  else { qb with scopes := qb.scopes ++ [scope] }

/-- Objection's `mergeEager`, modelled from the spec: merges into the
accumulated eager expression, never replaces, and — being the superclass
method — does not touch `_applyDefaultEager`. -/
def QB.mergeEager (qb : QB) (expr : JSVal) : QB :=
  { qb with eagerExprs := qb.eagerExprs ++ [expr] }

/-- The dito override of `eager(...)`: flips `_applyDefaultEager` to false and
delegates to the superclass `eager`, which replaces the expression (modelled
from the spec). -/
def QB.eager (qb : QB) (expr : JSVal) : QB :=
  { qb with applyDefaultEager := false, eagerExprs := [expr] }

/-- The dito override of `clearEager()`. -/
def QB.clearEager (qb : QB) : QB :=
  { qb with applyDefaultEager := false, eagerExprs := [] }

/-- The dito override of `orderBy(...)`: flips `_applyDefaultOrder` and
delegates to the superclass, recorded as an operation. -/
def QB.orderBy (qb : QB) (args : List JSVal) : QB :=
  { qb with applyDefaultOrder := false, ops := qb.ops ++ [.orderBy args] }

/-- One reference of `getPropertyRefs`: look the raw string up in the
per-builder cache, creating and caching a new `PropertyRef` on a miss. -/
def QB.refStep (parseDir checkAllow : Bool) (acc : List PropertyRef × QB)
    (r : String) : List PropertyRef × QB :=
  let prs := acc.1
  let qb := acc.2
  match qb.propertyRefsCache.lookup r with
  | some pr => (prs ++ [pr], qb)
  | none =>
    let pr : PropertyRef :=
      { ref := r, parseDir := parseDir
        allowArg := if checkAllow then qb.allowRefs else none }
    (prs ++ [pr], { qb with propertyRefsCache := qb.propertyRefsCache ++ [(r, pr)] })

/-- `getPropertyRefs(refs, { parseDir, checkAllow })` for a string argument:
split on `|`, then map each reference through the per-builder cache. -/
def QB.getPropertyRefs (qb : QB) (refs : String) (parseDir : Bool) (checkAllow : Bool) :
    List PropertyRef × QB :=
  (splitBar refs).foldl (QB.refStep parseDir checkAllow) ([], qb)

/-- Modelled from the spec: `PropertyRef.fullColumnName` produces the fully
qualified column reference for the final path segment. -/
def fullColumnName (m : ModelCls) (ref : String) : String :=
  m.name ++ "." ++ ref

/-- Run the chosen query filter on every resolved reference, collecting the
per-reference instructions of the OR-combined branch. -/
def runQueryFilterAll (m : ModelCls) (filterName : String) (value : JSVal) :
    List PropertyRef → Except QueryError (List WhereInstr)
  | [] => .ok []
  | pr :: rest => do
    let instr ← runQueryFilter filterName (fullColumnName m pr.ref) value
    let more ← runQueryFilterAll m filterName value rest
    pure (instr :: more)

/-- `parseQueryFilter(key, value)`: choose the filter from the key's split
form, resolve the property references (collecting one-to-one relations to
join), then apply the filter — directly for a single reference, OR-combined
inside one `where` group for several. -/
def QB.parseQueryFilter (qb : QB) (key : String) (value : JSVal) :
    Except QueryError QB := do
  let filterName ← selectQueryFilter key value
  let parts := splitColon key
  let (prs, qb) := qb.getPropertyRefs (parts.getD 0 "") false true
  let qb := prs.foldl
    (fun qb pr =>
      match refRelationName qb.modelCls pr.ref with
      | some rel =>
        if qb.modelCls.oneToOneRels.contains rel ∧ ¬qb.relationsToJoin.contains rel then
          { qb with relationsToJoin := qb.relationsToJoin ++ [rel] }
        else qb
      | none => qb)
    qb
  match prs with
  | [pr] =>
    let instr ← runQueryFilter filterName (fullColumnName qb.modelCls pr.ref) value
    .ok { qb with ops := qb.ops ++ [.applyFilter instr "and"] }
  | _ =>
    let instrs ← runQueryFilterAll qb.modelCls filterName value prs
    .ok { qb with ops := qb.ops ++ [.whereOrGroup instrs] }

/-- Template-literal rendering of a value, used in error messages. -/
def jsDisplay : JSVal → String
  | .undef => "undefined"
  | .null => "null"
  | .bool b => if b then "true" else "false"
  | .num n => toString n
  | .str s => s
  | .arr _ => ""
  | .obj _ => "[object Object]"

mutual

/-- The recursive collector inside the `where` query handler: it translates
nested object notation into string-based filter references.  The `parts`
argument is absent only at the entry call; descending into an object passes
`[...parts, key]` (the entry call passes `[]`, and `key` is never absent once
`parts` is present).  A leaf key naming a registered query filter becomes a
`:filter` suffix, any other leaf key is pushed as a path segment; a top-level
string is split on `=`; a top-level array processes each entry independently;
anything else is an unsupported `where` query.  The collected
`(reference, value)` pairs are then applied via `parseQueryFilter` in the
order the source would apply them. -/
def processPropertyRefs : Option String → JSVal → Option (List String) →
    Except QueryError (List (String × JSVal))
  | key, .obj fields, parts =>
    let nextParts : List String :=
      match parts with
      | none => []
      | some ps => ps ++ (match key with | some k => [k] | none => [])
    processPropertyRefsFields fields nextParts
  | key, value, some ps =>
    match key with
    | some k =>
      if queryFilterKeys.contains k then
        .ok [(String.intercalate "." ps ++ ":" ++ k, value)]
      else
        .ok [(String.intercalate "." (ps ++ [k]), value)]
    | none => .ok [(String.intercalate "." ps, value)]
  | _, .str s, none =>
    let parts := splitEquals s
    .ok [(parts.getD 0 "", if parts.length ≥ 2 then .str (parts.getD 1 "") else .undef)]
  | _, .arr entries, none =>
    processPropertyRefsEntries entries
  | _, _, none => .error .unsupportedWhere

/-- Object branch of `processPropertyRefs`: each field is processed with the
extended parts list, results concatenated in field order. -/
def processPropertyRefsFields : List (String × JSVal) → List String →
    Except QueryError (List (String × JSVal))
  | [], _ => .ok []
  | (k, v) :: rest, ps => do
    let sub ← processPropertyRefs (some k) v (some ps)
    let more ← processPropertyRefsFields rest ps
    pure (sub ++ more)

/-- Array branch of `processPropertyRefs`: each entry restarts collection with
no key and no parts. -/
def processPropertyRefsEntries : List JSVal →
    Except QueryError (List (String × JSVal))
  | [] => .ok []
  | e :: rest => do
    let sub ← processPropertyRefs none e none
    let more ← processPropertyRefsEntries rest
    pure (sub ++ more)

end

/-- `queryHandlers.where`: collect the flattened filter references and apply
each through `parseQueryFilter` (implicit AND across the collected pairs). -/
def queryHandlers.where (qb : QB) (value : JSVal) : Except QueryError QB := do
  let refs ← processPropertyRefs none value none
  refs.foldlM (fun qb (rv : String × JSVal) => qb.parseQueryFilter rv.1 rv.2) qb

/-- `queryHandlers.eager`: a truthy value is merged — via `mergeEager`, not
`eager` — into the accumulated eager expression. -/
def queryHandlers.eager (qb : QB) (value : JSVal) : QB :=
  if jsTruthy value then qb.mergeEager value else qb

/-- `queryHandlers.scope`. -/
def queryHandlers.scope (qb : QB) (value : JSVal) : QB :=
  qb.mergeScope value

/-- `queryHandlers.range`: a truthy value is destructured into `[start, end]`
(splitting a string value on the unescaped `/\s*,s*/` pattern); bounds that
fail `isNaN` or satisfy `end < start` under JavaScript comparison raise the
invalid-range error, otherwise `builder.range(start, end)` runs. -/
def queryHandlers.range (qb : QB) (value : JSVal) : Except QueryError QB :=
  if jsTruthy value then
    let pair : JSVal × JSVal :=
      match value with
      | .str s =>
        let parts := splitRangeValue s
        (.str (parts.getD 0 ""),
         if parts.length ≥ 2 then .str (parts.getD 1 "") else .undef)
      | .arr es => (es.getD 0 .undef, es.getD 1 .undef)
      | v => (v, .undef)
    let start := pair.1
    let endv := pair.2
    if jsIsNaN start || jsIsNaN endv || jsLt endv start then
      .error (.invalidRange (jsDisplay start) (jsDisplay endv))
    else
      .ok { qb with ops := qb.ops ++ [.range start endv] }
  else .ok qb

/-- `queryHandlers.limit`. -/
def queryHandlers.limit (qb : QB) (value : JSVal) : QB :=
  { qb with ops := qb.ops ++ [.limit value] }

/-- `queryHandlers.offset`. -/
def queryHandlers.offset (qb : QB) (value : JSVal) : QB :=
  { qb with ops := qb.ops ++ [.offset value] }

/-- `capitalize` from the utils package, for order aliases. -/
def capitalize (s : String) : String :=
  match s.data with
  | [] => ""
  | c :: rest => String.mk (c.toUpper :: rest)

/-- One reference of the `order` handler: order by a one-to-one relation
through a select alias, reject other relations, or order directly by the
qualified column. -/
def QB.orderStep (qb : QB) (pr : PropertyRef) : Except QueryError QB :=
  match refRelationName qb.modelCls pr.ref with
  | some rel =>
    if qb.modelCls.oneToOneRels.contains rel then
      let aliasName := rel ++ capitalize pr.ref
      let newOps := qb.ops ++
        [.selectAlias (fullColumnName qb.modelCls pr.ref) aliasName,
         .orderBy [.str aliasName, .str "asc"]]
      .ok { qb with ops := newOps, applyDefaultOrder := false }
    else
      .error (.invalidOrder pr.ref)
  | none =>
    .ok (qb.orderBy [.str (fullColumnName qb.modelCls pr.ref), .str "asc"])

/-- `queryHandlers.order`: each direction-aware reference either orders by a
one-to-one relation through a select alias, rejects other relations, or
orders directly by the qualified column.  The direction parsing and column
resolution live in the external `PropertyRef` class and are modelled from the
spec at this interface. -/
def queryHandlers.order (qb : QB) (value : JSVal) : Except QueryError QB :=
  if jsTruthy value then
    match value with
    | .str s =>
      let (prs, qb) := qb.getPropertyRefs s true true
      prs.foldlM QB.orderStep qb
    | _ => .ok qb
  else .ok qb

/-- `queryHandlers.pick` and `queryHandlers.omit` both delegate to
`applyPropertiesExpression`, whose work (a JSON-based expression parser plus
a lookup in the application's model registry) runs against external
application state; the call is recorded at the interface.  No claim depends
on its internals. -/
def queryHandlers.pickOmit (qb : QB) (key : String) (value : JSVal) : QB :=
  { qb with ops := qb.ops ++ [.propertiesExpression key value] }

/-- The join-variant handlers installed by the loop over join kinds: each
calls the corresponding `...Relation` method on the builder. -/
def joinHandlerKeys : List String :=
  ["join", "innerJoin", "outerJoin", "leftJoin", "rightJoin",
   "leftOuterJoin", "rightOuterJoin", "fullOuterJoin"]

/-- The full key set of the `queryHandlers` registry after module
initialisation. -/
def queryHandlerKeys : List String :=
  ["where", "eager", "omit", "pick", "scope", "range", "limit", "offset", "order"]
    ++ joinHandlerKeys

/-- Dispatch a key to its registered query handler. -/
def applyQueryHandler (qb : QB) (key : String) (value : JSVal) :
    Except QueryError QB :=
  match key with
  | "where" => queryHandlers.where qb value
  | "eager" => .ok (queryHandlers.eager qb value)
  | "omit" => .ok (queryHandlers.pickOmit qb "omit" value)
  | "pick" => .ok (queryHandlers.pickOmit qb "pick" value)
  | "scope" => .ok (queryHandlers.scope qb value)
  | "range" => queryHandlers.range qb value
  | "limit" => .ok (queryHandlers.limit qb value)
  | "offset" => .ok (queryHandlers.offset qb value)
  | "order" => queryHandlers.order qb value
  | k =>
    if joinHandlerKeys.contains k then
      .ok { qb with ops := qb.ops ++ [.joinRelation k value] }
    else .error (.invalidParameter k)

/-- `find(query, allowed)`: reset `_relationsToJoin`, then for each
`(key, value)` pair of the query, in order: when an allow-list is given and
the key is absent from it, fail with the not-allowed error; otherwise
dispatch to the key's query handler when one exists; a key with no handler
passes silently when it is explicitly allowed and fails as an invalid
parameter otherwise.  Afterwards the collected one-to-one relations are
joined with `leftJoin` semantics.  The per-pair step is split out as
`QB.findStep`. -/
def QB.findStep (allowed : Option (List String)) (qb : QB) (kv : String × JSVal) :
    Except QueryError QB :=
  let key := kv.1
  let value := kv.2
  let inAllowed :=
    match allowed with
    | some l => l.contains key
    | none => false
  if allowed.isNone || inAllowed then
    if queryHandlerKeys.contains key then
      applyQueryHandler qb key value
    else if ¬inAllowed then
      .error (.invalidParameter key)
    else
      .ok qb
  else
    .error (.notAllowed key)

def QB.find (qb : QB) (query : List (String × JSVal)) (allowed : Option (List String)) :
    Except QueryError QB := do
  let qb := { qb with relationsToJoin := [] }
  let qb ← query.foldlM (QB.findStep allowed) qb
  .ok { qb with
    ops := qb.ops ++ qb.relationsToJoin.map (fun rel => .joinRelation "leftJoin" (.str rel)) }

/-- The allow-list `findOne` passes to `find`: the five structural keys are
prepended to whatever the caller supplied (`allowed || []`). -/
def findOneAllowed (allowed : Option (List String)) : List String :=
  ["where", "eager", "scope", "pick", "omit"] ++ allowed.getD []

/-- `findOne(query, allowed)`: delegate to `find` with the extended allow-list
and take the first result. -/
def QB.findOne (qb : QB) (query : List (String × JSVal)) (allowed : Option (List String)) :
    Except QueryError QB := do
  let qb ← qb.find query (some (findOneAllowed allowed))
  .ok { qb with ops := qb.ops ++ [.first] }

/-- `execute()`: for a find query with no special selects, merge the model
class's `defaultEager` when `_applyDefaultEager` is still set and order by
`defaultOrder` when `_applyDefaultOrder` is still set; then apply the
accumulated scopes; the state returned is the builder as handed to the
superclass execution. -/
def QB.execute (qb : QB) : QB :=
  let qb :=
    if qb.isFind && !qb.hasSel then
      let qb :=
        match qb.modelCls.defaultEager with
        | some de => if qb.applyDefaultEager then qb.mergeEager (.str de) else qb
        | none => qb
      match qb.modelCls.defaultOrder with
      | some ord => if qb.applyDefaultOrder then qb.orderBy ord else qb
      | none => qb
    else qb
  { qb with ops := qb.ops ++ qb.scopes.map .applyScopeFilter }

/-- A node of an entity graph handed to the graph processor: a model instance
(an objection model, with its plain properties and its defined relation
fields kept separately — a declared relation whose value is `undefined`
behaves in both branches of `processRelates` exactly like an undeclared one
and is therefore not represented), an array, or any other value, which
passes through processing unchanged. -/
inductive GData where
  | model (props : List (String × JSVal)) (rels : List (String × GData))
  | arr (elems : List GData)
  | scalar (v : JSVal)

/-- `appendPath(path, separator, token)` from the GraphProcessor module. -/
def appendPath (path separator token : String) : String :=
  if path ≠ "" then path ++ separator ++ token else token

/-- JavaScript object-property assignment on a string-keyed association list:
an existing key keeps its position and gets the new value, a new key is
appended. -/
def insertAssoc {α : Type} : List (String × α) → String → α → List (String × α)
  | [], k, v => [(k, v)]
  | (k', v') :: rest, k, v =>
    if k' = k then (k, v) :: rest else (k', v') :: insertAssoc rest k v

/-- The graph-processor configuration consulted by `shouldRelate` and
`processRelates`: the collected `relate` override paths (absent when
`collectOverrides` recorded no `relate` override), the global
`options.relate` flag, and the `settings.restoreRelations` flag. -/
structure RelCfg where
  relateOverrides : Option (List String)
  optionsRelate : Bool
  restore : Bool

/-- `shouldRelate(relationPath)`: the root path (empty string) never relates;
otherwise membership in the collected `relate` override paths decides when
such overrides exist, else the global `relate` option does.  The source
returns `undefined` for the root path, which is falsy and modelled as
`false`. -/
def shouldRelate (cfg : RelCfg) (relationPath : String) : Bool :=
  if relationPath ≠ "" then
    match cfg.relateOverrides with
    | some relate => relate.contains relationPath
    | none => cfg.optionsRelate
  else false

/-- The removed-relations map: data path → stripped relation values. -/
def RemMap : Type := List (String × List (String × GData))

mutual

/-- `processRelates(data, relationPath, dataPath)`: a model node that should
relate becomes its shallow clone (relations dropped) and — when relation
restoration is on and the node had any defined relations — its relation
values are recorded in the removed-relations map under the node's data path;
a model node that should not relate is fully cloned with every relation field
replaced by its recursively processed value; an array maps its elements at
the same relation path, extending the data path by the element index; any
other value passes through unchanged. -/
def processRelates (cfg : RelCfg) (m : RemMap) :
    GData → String → String → GData × RemMap
  | .model props rels, relationPath, dataPath =>
    let relate := shouldRelate cfg relationPath
    if relate then
      let m2 : RemMap :=
        if cfg.restore then
          if rels.isEmpty then m else insertAssoc m dataPath rels
        else m
      (.model props [], m2)
    else
      let r := processRelatesRels cfg m rels relationPath dataPath
      (.model props r.1, r.2)
  | .arr elems, relationPath, dataPath =>
    let r := processRelatesElems cfg m elems relationPath dataPath 0
    (.arr r.1, r.2)
  | .scalar v, _, _ => (.scalar v, m)

/-- Relation-field traversal of the non-relate branch: each relation value is
processed with the relation path extended by `.name` and the data path by
`/name`. -/
def processRelatesRels (cfg : RelCfg) (m : RemMap) :
    List (String × GData) → String → String → List (String × GData) × RemMap
  | [], _, _ => ([], m)
  | (name, v) :: rest, relationPath, dataPath =>
    let r := processRelates cfg m v
      (appendPath relationPath "." name) (appendPath dataPath "/" name)
    let r2 := processRelatesRels cfg r.2 rest relationPath dataPath
    ((name, r.1) :: r2.1, r2.2)

/-- Array traversal: elements keep the relation path and extend the data path
by their index. -/
def processRelatesElems (cfg : RelCfg) (m : RemMap) :
    List GData → String → String → Nat → List GData × RemMap
  | [], _, _, _ => ([], m)
  | e :: rest, relationPath, dataPath, i =>
    let r := processRelates cfg m e relationPath (appendPath dataPath "/" (toString i))
    let r2 := processRelatesElems cfg r.2 rest relationPath dataPath (i + 1)
    (r.1 :: r2.1, r2.2)

end

/-- The GraphProcessor instance state after construction: the configuration
derived from options, overrides and settings, the input data normalised to an
array (remembering the original single-vs-array shape), the options and
collected overrides consulted by `getOptions`, and the removed-relations map
(`{}` at construction when `settings.restoreRelations` is set).  The
override-collection passes themselves walk external model-class metadata and
are therefore taken as the state they produce. -/
structure GPState where
  data : List GData
  isArr : Bool
  options : List (String × JSVal)
  overrides : List (String × List String)
  restore : Bool
  removed : RemMap

/-- The `RelCfg` view of a processor state, as `shouldRelate` reads it:
`this.overrides.relate` and truthiness of `this.options.relate`. -/
def GPState.relCfg (g : GPState) : RelCfg :=
  { relateOverrides := g.overrides.lookup "relate"
    optionsRelate := jsTruthy ((g.options.lookup "relate").getD .undef)
    restore := g.restore }

/-- The override lists rendered as JavaScript values for the spread in
`getOptions`. -/
def overridesAsJS (ov : List (String × List String)) : List (String × JSVal) :=
  ov.map (fun kv => (kv.1, .arr (kv.2.map .str)))

/-- JavaScript object spread `{...a, ...b}`. -/
def mergeObjJS (a b : List (String × JSVal)) : List (String × JSVal) :=
  b.foldl (fun acc kv => insertAssoc acc kv.1 kv.2) a

/-- `getOptions()`: the global options overlaid with the collected overrides
when any exist (`numOverrides` equals the number of collected override
keys). -/
def GPState.getOptions (g : GPState) : List (String × JSVal) :=
  if g.overrides.length > 0 then mergeObjJS g.options (overridesAsJS g.overrides)
  else g.options

/-- `getData()`: with relation restoration on, process the normalised data
array through `processRelates` (recording removed relations in the instance
state) and return it in the caller's original shape; otherwise return the
data unchanged. -/
def GPState.getData (g : GPState) : GData × GPState :=
  if g.restore then
    let r := processRelates g.relCfg g.removed (.arr g.data) "" ""
    let out := match r.1 with
      | .arr ds => if g.isArr then GData.arr ds else ds.headD (.scalar .undef)
      | other => other
    (out, { g with removed := r.2 })
  else
    (if g.isArr then .arr g.data else g.data.headD (.scalar .undef), g)

/-- Modelled from the spec: a token of a structural data path addresses an
array element by its decimal index. -/
def parsePathToken (t : String) : Option Nat :=
  if t.data = [] then none else parseDigits t.data 0

/-- Modelled from the spec: `getDataPath` splits a structural path on `/`
(the separator `processRelates` builds them with). -/
def splitPath (s : String) : List String :=
  splitJs '/' (fun _ => false) (fun t => t) s

mutual

/-- Modelled from the spec: navigation of `getDataPath` followed by property
assignment — apply `f` to the node addressed by the token list, keys
addressing relation fields of a model and decimal indices addressing array
elements (in well-formed data relation names are unique, so updating every
entry with the addressed name is the JavaScript single-property update). -/
def navUpdate (f : GData → GData) : GData → List String → GData
  | d, [] => f d
  | .model props rels, t :: ts => .model props (navUpdateRels f rels t ts)
  | .arr elems, t :: ts =>
    match parsePathToken t with
    | some i => .arr (navUpdateElems f elems i ts)
    | none => .arr elems
  | .scalar v, _ :: _ => .scalar v

/-- Relation-field navigation step. -/
def navUpdateRels (f : GData → GData) :
    List (String × GData) → String → List String → List (String × GData)
  | [], _, _ => []
  | (n, v) :: rest, t, ts =>
    if n = t then (n, navUpdate f v ts) :: navUpdateRels f rest t ts
    else (n, v) :: navUpdateRels f rest t ts

/-- Array-index navigation step. -/
def navUpdateElems (f : GData → GData) : List GData → Nat → List String → List GData
  | [], _, _ => []
  | e :: rest, 0, ts => navUpdate f e ts :: rest
  | e :: rest, i + 1, ts => e :: navUpdateElems f rest i ts

end

/-- Assignment of the recorded relation values onto the node found at a
recorded path: `obj[key] = values[key]` for each recorded relation. -/
def setRels (values : List (String × GData)) : GData → GData
  | .model props rels =>
    .model props (values.foldl (fun rs kv => insertAssoc rs kv.1 kv.2) rels)
  | other => other

/-- One entry of the restoration loop: locate the node at the structural path
inside the result array and assign the removed relation values onto it. -/
def restoreOne (ds : List GData) (path : String) (values : List (String × GData)) :
    List GData :=
  match splitPath path with
  | [] => ds
  | t :: ts =>
    match parsePathToken t with
    | some i => navUpdateElems (setRels values) ds i ts
    | none => ds

/-- `restoreRelations(result)`: normalise the result to an array, reassign
every recorded relation value at its recorded structural path, and return
the result in its original shape. -/
def GPState.restoreRelations (g : GPState) (result : GData) : GData :=
  let ds := match result with | .arr es => es | other => [other]
  let ds := g.removed.foldl (fun ds e => restoreOne ds e.1 e.2) ds
  match result with
  | .arr _ => .arr ds
  | other => ds.headD other

/-- Membership-style induction principle for `GData`. -/
def GData.myInd (motive : GData → Prop)
    (hmodel : ∀ props rels, (∀ n v, (n, v) ∈ rels → motive v) → motive (.model props rels))
    (harr : ∀ es, (∀ v ∈ es, motive v) → motive (.arr es))
    (hscalar : ∀ v, motive (.scalar v)) : ∀ d, motive d
  | .model props rels =>
    hmodel props rels (fun n v hv => GData.myInd motive hmodel harr hscalar v)
  | .arr es => harr es (fun v hv => GData.myInd motive hmodel harr hscalar v)
  | .scalar v => hscalar v
termination_by d => sizeOf d
decreasing_by
  · have h1 : sizeOf (n, v) < sizeOf rels := List.sizeOf_lt_of_mem hv
    simp at h1 ⊢
    omega
  · have h1 : sizeOf v < sizeOf es := List.sizeOf_lt_of_mem hv
    simp
    omega

/-- Join a list of structural-path tokens the way `processRelates` builds data
paths: successive `appendPath` with `/`. -/
def joinTokens (ts : List String) : String :=
  ts.foldl (fun p t => appendPath p "/" t) ""

/-- A usable structural-path token: nonempty and free of the separator. -/
def goodTok (t : String) : Bool :=
  decide (t ≠ "") && !(t.data.contains '/')

/-- Pairwise-distinct good tokens (sibling relation names of a well-formed
model node). -/
def distinctTokens : List String → Bool
  | [] => true
  | k :: rest => goodTok k && !(rest.contains k) && distinctTokens rest

mutual

/-- Well-formed graph data: every model node's relation names are distinct
usable tokens.  This is the shape produced by actual model classes, whose
relation names are distinct JavaScript identifiers. -/
def wfG : GData → Bool
  | .model _ rels => distinctTokens (rels.map Prod.fst) && wfRels rels
  | .arr es => wfElems es
  | .scalar _ => true

/-- Well-formedness of a relation-field list's values. -/
def wfRels : List (String × GData) → Bool
  | [] => true
  | (_, v) :: rest => wfG v && wfRels rest

/-- Well-formedness of an element list. -/
def wfElems : List GData → Bool
  | [] => true
  | e :: rest => wfG e && wfElems rest

end

mutual

/-- Proof-side view of `processRelates`: the output data alone.  It depends
only on the relation path, not on the data path or the accumulated map. -/
def pdata (cfg : RelCfg) : GData → String → GData
  | .model props rels, rp =>
    if shouldRelate cfg rp then .model props []
    else .model props (pdataRels cfg rels rp)
  | .arr es, rp => .arr (pdataElems cfg es rp)
  | .scalar v, _ => .scalar v

/-- Relation-field traversal of `pdata`. -/
def pdataRels (cfg : RelCfg) : List (String × GData) → String → List (String × GData)
  | [], _ => []
  | (n, v) :: rest, rp =>
    (n, pdata cfg v (appendPath rp "." n)) :: pdataRels cfg rest rp

/-- Element traversal of `pdata`. -/
def pdataElems (cfg : RelCfg) : List GData → String → List GData
  | [], _ => []
  | e :: rest, rp => pdata cfg e rp :: pdataElems cfg rest rp

end

mutual

/-- Proof-side view of `processRelates`: the removed-relation entries a node
contributes, with data paths relative to the node as token lists, in
insertion order. -/
def entriesT (cfg : RelCfg) : GData → String → List (List String × List (String × GData))
  | .model props rels, rp =>
    if shouldRelate cfg rp then
      if cfg.restore && !rels.isEmpty then [([], rels)] else []
    else entriesTRels cfg rels rp
  | .arr es, rp => entriesTElems cfg es rp 0
  | .scalar _, _ => []

/-- Relation-field traversal of `entriesT`: child entries prefixed by the
relation name. -/
def entriesTRels (cfg : RelCfg) :
    List (String × GData) → String → List (List String × List (String × GData))
  | [], _ => []
  | (n, v) :: rest, rp =>
    (entriesT cfg v (appendPath rp "." n)).map (fun e => (n :: e.1, e.2))
      ++ entriesTRels cfg rest rp

/-- Element traversal of `entriesT`: child entries prefixed by the decimal
element index. -/
def entriesTElems (cfg : RelCfg) :
    List GData → String → Nat → List (List String × List (String × GData))
  | [], _, _ => []
  | e :: rest, rp, i =>
    (entriesT cfg e rp).map (fun e2 => (toString i :: e2.1, e2.2))
      ++ entriesTElems cfg rest rp (i + 1)

end

/-- The decimal digit list of a natural number, most significant digit
first — the characters of `toString n`. -/
def natDigits (n : Nat) : List Char :=
  if n / 10 = 0 then [Nat.digitChar (n % 10)]
  else natDigits (n / 10) ++ [Nat.digitChar (n % 10)]
decreasing_by
  have h10 : n / 10 < n := by
    apply Nat.div_lt_self
    · omega
    · omega
  exact h10

/-- Membership-style induction principle for `JSVal`. -/
def JSVal.myInd (motive : JSVal → Prop)
    (hundef : motive .undef) (hnull : motive .null)
    (hbool : ∀ b, motive (.bool b)) (hnum : ∀ n, motive (.num n))
    (hstr : ∀ s, motive (.str s))
    (harr : ∀ es, (∀ v ∈ es, motive v) → motive (.arr es))
    (hobj : ∀ fs, (∀ n v, (n, v) ∈ fs → motive v) → motive (.obj fs)) :
    ∀ v, motive v
  | .undef => hundef
  | .null => hnull
  | .bool b => hbool b
  | .num n => hnum n
  | .str s => hstr s
  | .arr es =>
    harr es (fun v hv => JSVal.myInd motive hundef hnull hbool hnum hstr harr hobj v)
  | .obj fs =>
    hobj fs (fun n v hv => JSVal.myInd motive hundef hnull hbool hnum hstr harr hobj v)
termination_by v => sizeOf v
decreasing_by
  · have h1 : sizeOf v < sizeOf es := List.sizeOf_lt_of_mem hv
    simp
    omega
  · have h1 : sizeOf (n, v) < sizeOf fs := List.sizeOf_lt_of_mem hv
    simp at h1 ⊢
    omega

/-- Is this the allow-list rejection error? -/
def isNotAllowedErr : QueryError → Bool
  | .notAllowed _ => true
  | _ => false

/-- A sample model class for concrete witnesses: `defaultEager` and
`defaultOrder` both set. -/
def mcSample : ModelCls :=
  { name := "Dummy", defaultEager := some "bar", defaultOrder := some [.str "id"]
    relNames := [], oneToOneRels := [] }

/-- Absolutise a relative token path against a base data path, the way
`processRelates` extends data paths. -/
def appendPathTokens (dp : String) (ts : List String) : String :=
  ts.foldl (fun p t => appendPath p "/" t) dp

/-- Proof-side view of the restoration loop over token-level entries. -/
def restoreT (entries : List (List String × List (String × GData))) (d : GData) : GData :=
  entries.foldl (fun cur e => navUpdate (setRels e.2) cur e.1) d

/-- Update every relation field with the given name (exactly one in
well-formed data). -/
def updRel (R : List (String × GData)) (t : String) (g : GData → GData) :
    List (String × GData) :=
  R.map (fun nv => if nv.1 = t then (nv.1, g nv.2) else nv)

/-- Update the list element at an index. -/
def updIdx : List GData → Nat → (GData → GData) → List GData
  | [], _, _ => []
  | x :: l, 0, g => g x :: l
  | x :: l, i + 1, g => x :: updIdx l i g

/-- Absolutised entries: token paths joined onto the given base data path. -/
def absEntries (dp : String) (l : List (List String × List (String × GData))) :
    List (String × List (String × GData)) :=
  l.map (fun e => (appendPathTokens dp e.1, e.2))

/-- Insert a list of entries into a removed-relations map in order. -/
def insertEntries (m : RemMap) (l : List (String × List (String × GData))) : RemMap :=
  l.foldl (fun mm e => insertAssoc mm e.1 e.2) m

mutual

/-- Modelled from the spec's reading of the override mechanism: no node of
this subtree (placed at the given relation path) is marked for relate, i.e.
`shouldRelate` is false at the node and, recursively, below it.  Such a
subtree keeps its full data through `processRelates`. -/
def pureBelow (cfg : RelCfg) : GData → String → Bool
  | .model _ rels, rp => !shouldRelate cfg rp && pureBelowRels cfg rels rp
  | .arr es, rp => pureBelowElems cfg es rp
  | .scalar _, _ => true

/-- Relation-field traversal of `pureBelow`. -/
def pureBelowRels (cfg : RelCfg) : List (String × GData) → String → Bool
  | [], _ => true
  | (n, v) :: rest, rp =>
    pureBelow cfg v (appendPath rp "." n) && pureBelowRels cfg rest rp

/-- Element traversal of `pureBelow`. -/
def pureBelowElems (cfg : RelCfg) : List GData → String → Bool
  | [], _ => true
  | e :: rest, rp => pureBelow cfg e rp && pureBelowElems cfg rest rp

end

/-- A concrete processor state for the round-trip witness: one model entity
with one relation, global `relate` on, restoration on. -/
def gwC1 : GPState :=
  { data := [.model [("p", .num 1)] [("rel", .model [("id", .num 2)] [])]]
    isArr := true
    options := [("relate", .bool true)]
    overrides := []
    restore := true
    removed := [] }

/-- A concrete processor state for the stability witness. -/
def gwC9 : GPState :=
  { data := [.model [("q", .str "x")] [("owner", .model [("id", .num 7)] [])]]
    isArr := false
    options := [("relate", .bool true)]
    overrides := []
    restore := true
    removed := [] }

/-! ## Theorems -/

theorem lookup_append_of_some {α : Type} (l l' : List (String × α)) (k : String)
    (v : α) (h : l.lookup k = some v) : (l ++ l').lookup k = some v := by
  induction l with
  | nil => simp [List.lookup] at h
  | cons p rest ih =>
    obtain ⟨k', v'⟩ := p
    cases hbk : k == k' with
    | true =>
      simp only [List.cons_append, List.lookup, hbk] at h ⊢
      exact h
    | false =>
      simp only [List.cons_append, List.lookup, hbk] at h ⊢
      exact ih h

theorem lookup_append_single_self {α : Type} (l : List (String × α)) (k : String)
    (v : α) (h : l.lookup k = none) : (l ++ [(k, v)]).lookup k = some v := by
  induction l with
  | nil => simp [List.lookup]
  | cons p rest ih =>
    obtain ⟨k', v'⟩ := p
    cases hbk : k == k' with
    | true =>
      simp only [List.lookup, hbk] at h
      exact absurd h (by simp)
    | false =>
      simp only [List.cons_append, List.lookup, hbk] at h ⊢
      exact ih h

/-- C6: for every resolved column reference, the `empty` filter compiles to
`where(column, '=', '')` and `notEmpty` to `where(column, '>', '')`; a filter
key with no operator suffix whose value is `null` dispatches to the null
filter, which compiles to `whereNull(column)` — never an equality against
NULL. -/
theorem c6_empty_notEmpty_null_filters :
    (∀ col, queryFilters.empty col
        = { method := "where", args := [.str col, .str "=", .str ""] }) ∧
    (∀ col, queryFilters.notEmpty col
        = { method := "where", args := [.str col, .str ">", .str ""] }) ∧
    (∀ col v, runQueryFilter "empty" col v
        = .ok { method := "where", args := [.str col, .str "=", .str ""] }) ∧
    (∀ col v, runQueryFilter "notEmpty" col v
        = .ok { method := "where", args := [.str col, .str ">", .str ""] }) ∧
    (∀ key, (splitColon key).length = 1 → selectQueryFilter key .null = .ok "null") ∧
    (∀ col v, runQueryFilter "null" col v
        = .ok { method := "whereNull", args := [.str col] }) := by
  refine ⟨fun col => rfl, fun col => rfl, fun col v => rfl, fun col v => rfl,
    ?_, fun col v => rfl⟩
  intro key h
  simp [selectQueryFilter, h, jsIsNull]

/-- A concrete run of the implicit-null dispatch of `c6_empty_notEmpty_null_filters`. -/
theorem c6_witness :
    (splitColon "firstName").length = 1 ∧
    selectQueryFilter "firstName" JSVal.null = .ok "null" :=
  ⟨by decide, c6_empty_notEmpty_null_filters.2.2.2.2.1 "firstName" (by decide)⟩

/-- C7: the `where` handler's collector dot-joins object-nesting keys into a
reference path, turns a leaf key that names a registered filter into a
`:filter` suffix, hands each collected pair to `parseQueryFilter`, and on the
example query produces exactly the two expected instructions. -/
theorem c7_where_object_flattening :
    (∀ ps k v, (∀ fs, v ≠ .obj fs) → queryFilterKeys.contains k = false →
      processPropertyRefs (some k) v (some ps)
        = .ok [(String.intercalate "." (ps ++ [k]), v)]) ∧
    (∀ ps k v, (∀ fs, v ≠ .obj fs) → queryFilterKeys.contains k = true →
      processPropertyRefs (some k) v (some ps)
        = .ok [(String.intercalate "." ps ++ ":" ++ k, v)]) ∧
    (∀ qb v, queryHandlers.where qb v
      = (processPropertyRefs none v none).bind
          (fun refs => refs.foldlM (fun qb rv => qb.parseQueryFilter rv.1 rv.2) qb)) ∧
    processPropertyRefs none
        (.obj [("firstName", .obj [("like", .str "Jo%")]), ("lastName", .str "%oe")])
        none
      = .ok [("firstName:like", .str "Jo%"), ("lastName", .str "%oe")] := by
  refine ⟨?_, ?_, fun qb v => rfl, ?_⟩
  · intro ps k v hobj hk
    have hk2 : k ∉ queryFilterKeys := by simpa using hk
    cases v
    case obj fs => exact absurd rfl (hobj fs)
    all_goals simp [processPropertyRefs, hk2]
  · intro ps k v hobj hk
    have hk2 : k ∈ queryFilterKeys := by simpa using hk
    cases v
    case obj fs => exact absurd rfl (hobj fs)
    all_goals simp [processPropertyRefs, hk2]
  · simp [processPropertyRefs, processPropertyRefsFields, queryFilterKeys]
    constructor <;> rfl

/-- A concrete run of the leaf rules of `c7_where_object_flattening`. -/
theorem c7_witness :
    processPropertyRefs (some "lastName") (.str "%oe") (some [])
        = .ok [("lastName", .str "%oe")] ∧
    processPropertyRefs (some "like") (.str "Jo%") (some ["firstName"])
        = .ok [("firstName:like", .str "Jo%")] := by
  constructor
  · have h := c7_where_object_flattening.1 [] "lastName" (.str "%oe")
      (fun fs hx => JSVal.noConfusion hx) (by decide)
    simpa using h
  · have h := c7_where_object_flattening.2.1 ["firstName"] "like" (.str "Jo%")
      (fun fs hx => JSVal.noConfusion hx) (by decide)
    simpa using h

/-- C4 counterexample: the claim holds that `range` rejects every numerically
inverted pair, including start 10, end 9 — but the handler compares the
string bounds with JavaScript `<`, which is lexicographic, so `"9" < "10"` is
false and `range=10,9` builds a plan without any error even though the bounds
parse to the inverted numbers 10 and 9. -/
theorem c4_counterexample :
    jsToNumber (.str "10") = some 10 ∧ jsToNumber (.str "9") = some 9 ∧
    queryHandlers.range (QB.init mcSample) (.str "10,9")
      = .ok { QB.init mcSample with ops := [.range (.str "10") (.str "9")] } :=
  ⟨by decide, by decide, rfl⟩

/-- C4 (amended): the `range` handler raises the invalid-range error exactly
when a bound fails JavaScript `isNaN` or the end compares less than the start
under JavaScript `<` — lexicographic when both bounds are strings (so
`"5,3"` raises while `"2,4"` paginates, and the array form `[10, 9]` raises
numerically) — and this happens during plan construction, before any
database call; the `between`/`notBetween` filters perform no validation at
all: the `operators` loop overwrites them with plain comparison filters that
always succeed with a `where(column, 'between', value)` instruction. -/
theorem c4_range_and_between_validation :
    (∀ qb, queryHandlers.range qb (.str "2,4")
        = .ok { qb with ops := qb.ops ++ [.range (.str "2") (.str "4")] }) ∧
    (∀ qb, queryHandlers.range qb (.str "5,3") = .error (.invalidRange "5" "3")) ∧
    (∀ qb, queryHandlers.range qb (.arr [.num 10, .num 9])
        = .error (.invalidRange "10" "9")) ∧
    (∀ qb v, jsTruthy v = false → queryHandlers.range qb v = .ok qb) ∧
    (∀ qb v, (∃ qb2, queryHandlers.range qb v = .ok qb2) ∨
      (∃ s e, queryHandlers.range qb v = .error (.invalidRange s e))) ∧
    (∀ col v, runQueryFilter "between" col v
        = .ok { method := "where", args := [.str col, .str "between", v] }) ∧
    (∀ col v, runQueryFilter "notBetween" col v
        = .ok { method := "where", args := [.str col, .str "not between", v] }) := by
  refine ⟨fun qb => rfl, fun qb => rfl, fun qb => rfl, ?_, ?_,
    fun col v => rfl, fun col v => rfl⟩
  · intro qb v hv
    simp [queryHandlers.range, hv]
  · intro qb v
    by_cases hv : jsTruthy v = true
    · simp only [queryHandlers.range, hv, if_true]
      split
      · right
        exact ⟨_, _, rfl⟩
      · left
        exact ⟨_, rfl⟩
    · left
      have hv2 : jsTruthy v = false := by simpa using hv
      exact ⟨qb, by simp [queryHandlers.range, hv2]⟩

theorem selectQueryFilter_no_notAllowed (k : String) (v : JSVal) (e : QueryError)
    (h : selectQueryFilter k v = .error e) : isNotAllowedErr e = false := by
  unfold selectQueryFilter at h
  by_cases h1 : (splitColon k).length = 1
  · rw [if_pos h1] at h
    exact absurd h (by simp)
  · rw [if_neg h1] at h
    by_cases h2 : (splitColon k).length = 2
    · rw [if_pos h2] at h
      by_cases h3 : queryFilterKeys.contains ((splitColon k).getD 1 "") = true
      · rw [if_pos h3] at h
        exact absurd h (by simp)
      · rw [if_neg h3] at h
        simp only [Except.error.injEq] at h
        subst h
        rfl
    · rw [if_neg h2] at h
      simp only [Except.error.injEq] at h
      subst h
      rfl

theorem jsSplitCommaVal_no_notAllowed (v : JSVal) (e : QueryError)
    (h : jsSplitCommaVal v = .error e) : isNotAllowedErr e = false := by
  cases v <;> simp [jsSplitCommaVal] at h <;> subst h <;> rfl

theorem runQueryFilter_no_notAllowed (name col : String) (v : JSVal) (e : QueryError)
    (h : runQueryFilter name col v = .error e) : isNotAllowedErr e = false := by
  unfold runQueryFilter at h
  split at h
  · exact absurd h (by simp)
  · split at h
    · cases hs : jsSplitCommaVal v with
      | ok x => simp [hs, Bind.bind, Except.bind] at h
      | error e2 =>
        simp [hs, Bind.bind, Except.bind] at h
        subst h
        exact jsSplitCommaVal_no_notAllowed v e2 hs
    · cases hs : jsSplitCommaVal v with
      | ok x => simp [hs, Bind.bind, Except.bind] at h
      | error e2 =>
        simp [hs, Bind.bind, Except.bind] at h
        subst h
        exact jsSplitCommaVal_no_notAllowed v e2 hs
    · simp at h
    · simp at h
    · simp at h
    · simp at h
    · simp at h
      subst h
      rfl

theorem runQueryFilterAll_no_notAllowed (m : ModelCls) (name : String) (v : JSVal) :
    ∀ prs e, runQueryFilterAll m name v prs = .error e → isNotAllowedErr e = false := by
  intro prs
  induction prs with
  | nil => intro e h; simp [runQueryFilterAll] at h
  | cons pr rest ih =>
    intro e h
    simp only [runQueryFilterAll] at h
    cases h1 : runQueryFilter name (fullColumnName m pr.ref) v with
    | error e1 =>
      simp [h1, Bind.bind, Except.bind] at h
      subst h
      exact runQueryFilter_no_notAllowed _ _ _ _ h1
    | ok instr =>
      simp only [h1, Bind.bind, Except.bind] at h
      cases h2 : runQueryFilterAll m name v rest with
      | error e2 =>
        simp [h2] at h
        subst h
        exact ih _ h2
      | ok more => simp [h2, pure, Except.pure] at h

theorem parseQueryFilter_no_notAllowed (qb : QB) (k : String) (v : JSVal) (e : QueryError)
    (h : QB.parseQueryFilter qb k v = .error e) : isNotAllowedErr e = false := by
  unfold QB.parseQueryFilter at h
  cases h1 : selectQueryFilter k v with
  | error e1 =>
    simp [h1, Bind.bind, Except.bind] at h
    subst h
    exact selectQueryFilter_no_notAllowed _ _ _ h1
  | ok name =>
    simp only [h1, Bind.bind, Except.bind] at h
    split at h
    · split at h
      · rename_i e2 heq
        simp at h
        subst h
        exact runQueryFilter_no_notAllowed _ _ _ _ heq
      · simp at h
    · split at h
      · rename_i e2 heq
        simp at h
        subst h
        exact runQueryFilterAll_no_notAllowed _ _ _ _ _ heq
      · simp at h

theorem processPropertyRefsFields_err_aux (fs : List (String × JSVal))
    (ihp : ∀ n v, (n, v) ∈ fs → ∀ key parts e,
      processPropertyRefs key v parts = .error e → e = .unsupportedWhere) :
    ∀ ps e, processPropertyRefsFields fs ps = .error e → e = .unsupportedWhere := by
  induction fs with
  | nil => intro ps e h; simp [processPropertyRefsFields] at h
  | cons f rest ih =>
    intro ps e h
    obtain ⟨n, v⟩ := f
    simp only [processPropertyRefsFields, Bind.bind, Except.bind] at h
    split at h
    · rename_i e2 heq
      simp at h
      subst h
      exact ihp n v (by simp) (some n) (some ps) e2 heq
    · split at h
      · rename_i e2 heq
        simp at h
        subst h
        exact ih (fun n2 v2 hm => ihp n2 v2 (List.mem_cons_of_mem _ hm)) ps e2 heq
      · simp [pure, Except.pure] at h

theorem processPropertyRefsEntries_err_aux (es : List JSVal)
    (ihp : ∀ v, v ∈ es → ∀ key parts e,
      processPropertyRefs key v parts = .error e → e = .unsupportedWhere) :
    ∀ e, processPropertyRefsEntries es = .error e → e = .unsupportedWhere := by
  induction es with
  | nil => intro e h; simp [processPropertyRefsEntries] at h
  | cons v rest ih =>
    intro e h
    simp only [processPropertyRefsEntries, Bind.bind, Except.bind] at h
    split at h
    · rename_i e2 heq
      simp at h
      subst h
      exact ihp v (by simp) none none e2 heq
    · split at h
      · rename_i e2 heq
        simp at h
        subst h
        exact ih (fun v2 hm => ihp v2 (List.mem_cons_of_mem _ hm)) e2 heq
      · simp [pure, Except.pure] at h

theorem processPropertyRefs_err (v : JSVal) : ∀ key parts e,
    processPropertyRefs key v parts = .error e → e = .unsupportedWhere := by
  induction v using JSVal.myInd with
  | hobj fs ihp =>
    intro key parts e h
    cases parts <;> cases key <;>
      (simp only [processPropertyRefs] at h
       exact processPropertyRefsFields_err_aux fs ihp _ e h)
  | harr es ihp =>
    intro key parts e h
    cases parts with
    | some ps =>
      cases key with
      | none => simp [processPropertyRefs] at h
      | some k =>
        simp only [processPropertyRefs] at h
        split at h <;> simp at h
    | none =>
      simp only [processPropertyRefs] at h
      exact processPropertyRefsEntries_err_aux es ihp e h
  | hundef =>
    intro key parts e h
    cases parts with
    | some ps =>
      cases key with
      | none => simp [processPropertyRefs] at h
      | some k =>
        simp only [processPropertyRefs] at h
        split at h <;> simp at h
    | none =>
      simp [processPropertyRefs] at h
      exact h.symm
  | hnull =>
    intro key parts e h
    cases parts with
    | some ps =>
      cases key with
      | none => simp [processPropertyRefs] at h
      | some k =>
        simp only [processPropertyRefs] at h
        split at h <;> simp at h
    | none =>
      simp [processPropertyRefs] at h
      exact h.symm
  | hbool b =>
    intro key parts e h
    cases parts with
    | some ps =>
      cases key with
      | none => simp [processPropertyRefs] at h
      | some k =>
        simp only [processPropertyRefs] at h
        split at h <;> simp at h
    | none =>
      simp [processPropertyRefs] at h
      exact h.symm
  | hnum n =>
    intro key parts e h
    cases parts with
    | some ps =>
      cases key with
      | none => simp [processPropertyRefs] at h
      | some k =>
        simp only [processPropertyRefs] at h
        split at h <;> simp at h
    | none =>
      simp [processPropertyRefs] at h
      exact h.symm
  | hstr s =>
    intro key parts e h
    cases parts with
    | some ps =>
      cases key with
      | none => simp [processPropertyRefs] at h
      | some k =>
        simp only [processPropertyRefs] at h
        split at h <;> simp at h
    | none => simp [processPropertyRefs] at h

theorem foldlM_err_from {β : Type} (f : β → String × JSVal → Except QueryError β)
    (hf : ∀ b x e, f b x = .error e → isNotAllowedErr e = false) :
    ∀ (l : List (String × JSVal)) (b : β) (e : QueryError),
      List.foldlM f b l = .error e → isNotAllowedErr e = false := by
  intro l
  induction l with
  | nil => intro b e h; simp [List.foldlM, pure, Except.pure] at h
  | cons x rest ih =>
    intro b e h
    simp only [List.foldlM, Bind.bind, Except.bind] at h
    split at h
    · rename_i e2 heq
      simp at h
      subst h
      exact hf b x e2 heq
    · rename_i b2 heq
      exact ih b2 e h

theorem whereHandler_no_notAllowed (qb : QB) (v : JSVal) (e : QueryError)
    (h : queryHandlers.where qb v = .error e) : isNotAllowedErr e = false := by
  unfold queryHandlers.where at h
  simp only [Bind.bind, Except.bind] at h
  split at h
  · rename_i e2 heq
    simp at h
    subst h
    have : e2 = .unsupportedWhere := processPropertyRefs_err _ _ _ _ heq
    subst this
    rfl
  · rename_i refs heq
    exact foldlM_err_from _ (fun b x e3 hx => parseQueryFilter_no_notAllowed b x.1 x.2 e3 hx)
      refs qb e h

theorem orderStep_no_notAllowed (qb : QB) (pr : PropertyRef) (e : QueryError)
    (h : QB.orderStep qb pr = .error e) : isNotAllowedErr e = false := by
  unfold QB.orderStep at h
  split at h
  · split at h
    · simp at h
    · simp at h
      subst h
      rfl
  · simp at h

theorem orderFold_no_notAllowed (prs : List PropertyRef) (e : QueryError) :
    ∀ qb : QB, List.foldlM QB.orderStep qb prs = .error e →
      isNotAllowedErr e = false := by
  induction prs with
  | nil => intro qb h; simp [List.foldlM, pure, Except.pure] at h
  | cons pr rest ih =>
    intro qb h
    simp only [List.foldlM, Bind.bind, Except.bind] at h
    split at h
    · rename_i e2 heq
      simp at h
      subst h
      exact orderStep_no_notAllowed qb pr e2 heq
    · rename_i qb2 heq
      exact ih qb2 h

theorem orderHandler_no_notAllowed (qb : QB) (v : JSVal) (e : QueryError)
    (h : queryHandlers.order qb v = .error e) : isNotAllowedErr e = false := by
  unfold queryHandlers.order at h
  split at h
  · split at h
    all_goals first
      | exact orderFold_no_notAllowed _ e _ h
      | simp at h
  · simp at h

theorem rangeHandler_no_notAllowed (qb : QB) (v : JSVal) (e : QueryError)
    (h : queryHandlers.range qb v = .error e) : isNotAllowedErr e = false := by
  unfold queryHandlers.range at h
  split at h
  · split at h
    all_goals dsimp only at h
    all_goals repeat' split at h
    all_goals first
      | (simp at h; subst h; rfl)
      | simp at h
  · simp at h

theorem applyQueryHandler_no_notAllowed (qb : QB) (key : String) (v : JSVal)
    (e : QueryError) (h : applyQueryHandler qb key v = .error e) :
    isNotAllowedErr e = false := by
  unfold applyQueryHandler at h
  split at h
  · exact whereHandler_no_notAllowed _ _ _ h
  · simp at h
  · simp at h
  · simp at h
  · simp at h
  · exact rangeHandler_no_notAllowed _ _ _ h
  · simp at h
  · simp at h
  · exact orderHandler_no_notAllowed _ _ _ h
  · split at h
    · simp at h
    · simp at h
      subst h
      rfl

theorem findStep_notAllowed (allowed : Option (List String)) (qb : QB)
    (kv : String × JSVal) (k : String)
    (h : QB.findStep allowed qb kv = .error (.notAllowed k)) :
    kv.1 = k ∧ ∃ l, allowed = some l ∧ l.contains k = false := by
  unfold QB.findStep at h
  cases allowed with
  | none =>
    dsimp only at h
    split at h
    · split at h
      · exact absurd (applyQueryHandler_no_notAllowed qb kv.1 kv.2 _ h)
          (by simp [isNotAllowedErr])
      · split at h
        · simp at h
        · simp at h
    · rename_i hgate
      exact absurd (by simp) hgate
  | some l =>
    dsimp only at h
    split at h
    · split at h
      · exact absurd (applyQueryHandler_no_notAllowed qb kv.1 kv.2 _ h)
          (by simp [isNotAllowedErr])
      · split at h
        · simp at h
        · simp at h
    · rename_i hgate
      simp at h hgate
      subst h
      exact ⟨rfl, l, rfl, by simpa using hgate⟩

theorem findFold_notAllowed (allowed : Option (List String)) (k : String) :
    ∀ (query : List (String × JSVal)) (qb : QB),
      List.foldlM (QB.findStep allowed) qb query = .error (.notAllowed k) →
      ∃ l, allowed = some l ∧ l.contains k = false := by
  intro query
  induction query with
  | nil => intro qb h; simp [List.foldlM, pure, Except.pure] at h
  | cons kv rest ih =>
    intro qb h
    simp only [List.foldlM, Bind.bind, Except.bind] at h
    split at h
    · rename_i e2 heq
      simp at h
      subst h
      exact (findStep_notAllowed allowed qb kv k heq).2
    · rename_i qb2 heq
      exact ih qb2 h

theorem find_notAllowed_gate (qb : QB) (query : List (String × JSVal))
    (allowed : Option (List String)) (k : String)
    (h : QB.find qb query allowed = .error (.notAllowed k)) :
    ∃ l, allowed = some l ∧ l.contains k = false := by
  unfold QB.find at h
  simp only [Bind.bind, Except.bind] at h
  split at h
  · rename_i e2 heq
    simp at h
    subst h
    exact findFold_notAllowed allowed k query _ heq
  · simp at h

theorem refStep_shape (pd ca : Bool) (prs : List PropertyRef) (qb : QB) (r : String) :
    ∃ x qb2, QB.refStep pd ca (prs, qb) r = (prs ++ [x], qb2) ∧
      QB.refStep pd ca ([], qb) r = ([x], qb2) := by
  cases hl : qb.propertyRefsCache.lookup r with
  | some pr => exact ⟨pr, qb, by simp [QB.refStep, hl], by simp [QB.refStep, hl]⟩
  | none =>
    refine ⟨{ ref := r, parseDir := pd, allowArg := if ca then qb.allowRefs else none },
      { qb with propertyRefsCache := qb.propertyRefsCache ++
          [(r, { ref := r, parseDir := pd,
                 allowArg := if ca then qb.allowRefs else none })] },
      by simp [QB.refStep, hl], by simp [QB.refStep, hl]⟩

theorem refsFold_acc (pd ca : Bool) :
    ∀ (ts : List String) (prs : List PropertyRef) (qb : QB),
      List.foldl (QB.refStep pd ca) (prs, qb) ts
        = (prs ++ (List.foldl (QB.refStep pd ca) ([], qb) ts).1,
           (List.foldl (QB.refStep pd ca) ([], qb) ts).2) := by
  intro ts
  induction ts with
  | nil => intro prs qb; simp
  | cons t rest ih =>
    intro prs qb
    obtain ⟨x, qb2, h1, h2⟩ := refStep_shape pd ca prs qb t
    simp only [List.foldl, h1, h2]
    rw [ih (prs ++ [x]) qb2, ih [x] qb2]
    simp

theorem refsFold_mono (pd ca : Bool) :
    ∀ (ts : List String) (prs : List PropertyRef) (qb : QB) (k : String) (v : PropertyRef),
      qb.propertyRefsCache.lookup k = some v →
      ((List.foldl (QB.refStep pd ca) (prs, qb) ts).2).propertyRefsCache.lookup k = some v := by
  intro ts
  induction ts with
  | nil => intro prs qb k v h; simpa using h
  | cons t rest ih =>
    intro prs qb k v h
    cases hl : qb.propertyRefsCache.lookup t with
    | some pr =>
      simp only [List.foldl, QB.refStep, hl]
      exact ih _ qb k v h
    | none =>
      simp only [List.foldl, QB.refStep, hl]
      exact ih _ _ k v (lookup_append_of_some _ _ k v h)

theorem refsFold_idem (pd ca : Bool) :
    ∀ (ts : List String) (qb : QB),
      List.foldl (QB.refStep pd ca) ([], (List.foldl (QB.refStep pd ca) ([], qb) ts).2) ts
        = List.foldl (QB.refStep pd ca) ([], qb) ts := by
  intro ts
  induction ts with
  | nil => intro qb; simp
  | cons t rest ih =>
    intro qb
    obtain ⟨x, qb2, h1, h2⟩ := refStep_shape pd ca [] qb t
    have hx : qb2.propertyRefsCache.lookup t = some x := by
      cases hl : qb.propertyRefsCache.lookup t with
      | some pr =>
        have heq : ([x], qb2) = ([pr], qb) := by
          rw [← h2]
          simp [QB.refStep, hl]
        simp at heq
        rw [heq.2, heq.1]
        exact hl
      | none =>
        have heq : ([x], qb2) =
            ([({ ref := t, parseDir := pd,
                 allowArg := if ca then qb.allowRefs else none } : PropertyRef)],
             { qb with propertyRefsCache := qb.propertyRefsCache ++
                [(t, { ref := t, parseDir := pd,
                       allowArg := if ca then qb.allowRefs else none })] }) := by
          rw [← h2]
          simp [QB.refStep, hl]
        simp at heq
        rw [heq.2, heq.1]
        exact lookup_append_single_self _ t _ hl
    have hfinal : ((List.foldl (QB.refStep pd ca) ([], qb2) rest).2).propertyRefsCache.lookup t
        = some x := refsFold_mono pd ca rest [] qb2 t x hx
    have hstep2 : QB.refStep pd ca ([], (List.foldl (QB.refStep pd ca) ([], qb2) rest).2) t
        = ([x], (List.foldl (QB.refStep pd ca) ([], qb2) rest).2) := by
      simp [QB.refStep, hfinal]
    calc List.foldl (QB.refStep pd ca) ([],
            (List.foldl (QB.refStep pd ca) ([], qb) (t :: rest)).2) (t :: rest)
        = List.foldl (QB.refStep pd ca) ([],
            (List.foldl (QB.refStep pd ca) ([x], qb2) rest).2) (t :: rest) := by
          simp only [List.foldl, h2]
      _ = List.foldl (QB.refStep pd ca) ([],
            (List.foldl (QB.refStep pd ca) ([], qb2) rest).2) (t :: rest) := by
          rw [refsFold_acc pd ca rest [x] qb2]
      _ = List.foldl (QB.refStep pd ca) ([x],
            (List.foldl (QB.refStep pd ca) ([], qb2) rest).2) rest := by
          simp only [List.foldl, hstep2]
      _ = List.foldl (QB.refStep pd ca) ([], qb) (t :: rest) := by
          rw [refsFold_acc pd ca rest [x] _, ih qb2]
          simp only [List.foldl, h2]
          rw [refsFold_acc pd ca rest [x] qb2]

theorem refStep_caches (pd ca : Bool) (qb : QB) (t : String) (x : PropertyRef)
    (qb2 : QB) (h2 : QB.refStep pd ca ([], qb) t = ([x], qb2)) :
    qb2.propertyRefsCache.lookup t = some x := by
  cases hl : qb.propertyRefsCache.lookup t with
  | some pr =>
    have heq : ([x], qb2) = ([pr], qb) := by
      rw [← h2]
      simp [QB.refStep, hl]
    simp at heq
    rw [heq.2, heq.1]
    exact hl
  | none =>
    have heq : ([x], qb2) =
        ([({ ref := t, parseDir := pd,
             allowArg := if ca then qb.allowRefs else none } : PropertyRef)],
         { qb with propertyRefsCache := qb.propertyRefsCache ++
            [(t, { ref := t, parseDir := pd,
                   allowArg := if ca then qb.allowRefs else none })] }) := by
      rw [← h2]
      simp [QB.refStep, hl]
    simp at heq
    rw [heq.2, heq.1]
    exact lookup_append_single_self _ t _ hl

theorem refsFold_cached (pd ca : Bool) :
    ∀ (ts : List String) (qb : QB) (pr : PropertyRef),
      pr ∈ (List.foldl (QB.refStep pd ca) ([], qb) ts).1 →
      ∃ k, ((List.foldl (QB.refStep pd ca) ([], qb) ts).2).propertyRefsCache.lookup k
        = some pr := by
  intro ts
  induction ts with
  | nil => intro qb pr hm; simp at hm
  | cons t rest ih =>
    intro qb pr hm
    obtain ⟨x, qb2, h1, h2⟩ := refStep_shape pd ca [] qb t
    have hx := refStep_caches pd ca qb t x qb2 h2
    rw [show List.foldl (QB.refStep pd ca) ([], qb) (t :: rest)
        = List.foldl (QB.refStep pd ca) ([x], qb2) rest from by
      simp only [List.foldl, h2]] at hm ⊢
    rw [refsFold_acc pd ca rest [x] qb2] at hm ⊢
    simp only [List.cons_append, List.nil_append, List.mem_cons] at hm
    rcases hm with hm | hm
    · subst hm
      exact ⟨t, refsFold_mono pd ca rest [] qb2 t pr hx⟩
    · exact ih qb2 pr hm

/-- C8: on one builder instance, resolving property references is cached by
raw reference string: running `getPropertyRefs` a second time with the same
argument returns exactly the first run's result and leaves the builder state
unchanged — the references are served from the cache, where every returned
`PropertyRef` is stored. -/
theorem c8_cache_idempotent :
    (∀ (qb : QB) (refs : String) (pd ca : Bool),
      ((qb.getPropertyRefs refs pd ca).2).getPropertyRefs refs pd ca
        = qb.getPropertyRefs refs pd ca) ∧
    (∀ (qb : QB) (refs : String) (pd ca : Bool) (pr : PropertyRef),
      pr ∈ (qb.getPropertyRefs refs pd ca).1 →
      ∃ k, ((qb.getPropertyRefs refs pd ca).2).propertyRefsCache.lookup k = some pr) := by
  constructor
  · intro qb refs pd ca
    exact refsFold_idem pd ca (splitBar refs) qb
  · intro qb refs pd ca pr hm
    exact refsFold_cached pd ca (splitBar refs) qb pr hm

/-- A concrete run of `c8_cache_idempotent`: the single reference `"a"` is
returned and cached under its raw string. -/
theorem c8_witness :
    ∃ k, (((QB.init mcSample).getPropertyRefs "a" false true).2).propertyRefsCache.lookup k
      = some { ref := "a", parseDir := false, allowArg := none } :=
  c8_cache_idempotent.2 (QB.init mcSample) "a" false true
    { ref := "a", parseDir := false, allowArg := none } (by decide)

/-- C3 counterexample: the claim holds that structural keyword keys with a
registered handler — such as `eager` — are always permitted even when absent
from a non-empty allow-list; but `find` rejects any key absent from the
allow-list before ever consulting the handler registry, so `eager` with
allow-list `["name"]` raises the not-allowed error. -/
theorem c3_counterexample :
    queryHandlerKeys.contains "eager" = true ∧
    (QB.init mcSample).find [("eager", .str "foo")] (some ["name"])
      = .error (.notAllowed "eager") :=
  ⟨by decide, rfl⟩

/-- C3 (amended): when an allow-list is supplied, every top-level key absent
from it — structural keyword or not — raises the not-allowed error, and that
gate is the only source of this error; a key present in the allow-list
dispatches to its query handler when one is registered and passes silently
when none is; with no allow-list, a key without a handler raises the
invalid-parameter error. -/
theorem c3_allow_list_gate :
    (∀ (qb : QB) (k : String) (v : JSVal) (l : List String),
      l.contains k = false →
      qb.find [(k, v)] (some l) = .error (.notAllowed k)) ∧
    (∀ (qb : QB) (k : String) (v : JSVal) (l : List String),
      l.contains k = true → queryHandlerKeys.contains k = false →
      qb.find [(k, v)] (some l) = .ok { qb with relationsToJoin := [] }) ∧
    (∀ (qb : QB) (k : String) (v : JSVal),
      queryHandlerKeys.contains k = false →
      qb.find [(k, v)] none = .error (.invalidParameter k)) ∧
    (∀ (qb : QB) (k : String) (v : JSVal) (l : List String),
      l.contains k = true → queryHandlerKeys.contains k = true →
      qb.find [(k, v)] (some l)
        = (applyQueryHandler { qb with relationsToJoin := [] } k v).bind
            (fun qb2 =>
              let joins := qb2.relationsToJoin.map
                (fun rel => BuilderOp.joinRelation "leftJoin" (.str rel))
              .ok { qb2 with ops := qb2.ops ++ joins })) ∧
    (∀ (qb : QB) (query : List (String × JSVal)) (l : List String) (k : String),
      QB.find qb query (some l) = .error (.notAllowed k) → l.contains k = false) := by
  refine ⟨?_, ?_, ?_, ?_, ?_⟩
  · intro qb k v l h
    have h2 : k ∉ l := by simpa using h
    simp [QB.find, QB.findStep, List.foldlM, h2, Bind.bind, Except.bind]
  · intro qb k v l h1 h2
    have h1b : k ∈ l := by simpa using h1
    have h2b : k ∉ queryHandlerKeys := by simpa using h2
    simp [QB.find, QB.findStep, List.foldlM, h1b, h2b, Bind.bind, Except.bind,
      pure, Except.pure]
  · intro qb k v h
    have h2 : k ∉ queryHandlerKeys := by simpa using h
    simp [QB.find, QB.findStep, List.foldlM, h2, Bind.bind, Except.bind]
  · intro qb k v l h1 h2
    have h1b : k ∈ l := by simpa using h1
    have h2b : k ∈ queryHandlerKeys := by simpa using h2
    simp only [QB.find, QB.findStep, List.foldlM, Bind.bind, Except.bind,
      pure, Except.pure]
    rw [if_pos (by simp [h1b]), if_pos (by simpa using h2b)]
    cases hh : applyQueryHandler { qb with relationsToJoin := [] } k v with
    | error e => simp [hh]
    | ok qb2 => simp [hh, pure, Except.pure]
  · intro qb query l k h
    obtain ⟨l2, hl2, hc⟩ := find_notAllowed_gate qb query (some l) k h
    injection hl2 with hl2
    rw [hl2]
    exact hc

/-- A concrete run of `c3_allow_list_gate`: `limit` absent from the allow-list
is rejected, present it dispatches. -/
theorem c3_witness :
    (["name"] : List String).contains "limit" = false ∧
    (QB.init mcSample).find [("limit", .num 5)] (some ["name"])
      = .error (.notAllowed "limit") :=
  ⟨by decide, c3_allow_list_gate.1 (QB.init mcSample) "limit" (.num 5) ["name"] (by decide)⟩

/-- A concrete run of `c4_range_and_between_validation`: a falsy `range` value
is a no-op. -/
theorem c4_witness :
    jsTruthy JSVal.null = false ∧
    queryHandlers.range (QB.init mcSample) JSVal.null = .ok (QB.init mcSample) :=
  ⟨by decide, c4_range_and_between_validation.2.2.2.1 (QB.init mcSample) .null (by decide)⟩

/-- C2 counterexample: the claim holds that handling the `eager` query
parameter marks the plan as explicitly eager so the model's default eager
expression is suppressed at execute; but the handler merges through
`mergeEager`, which leaves `_applyDefaultEager` set, so for a model with
`defaultEager` `"bar"` a find with `eager=foo` still merges `"bar"` at
execute — the default is not suppressed. -/
theorem c2_counterexample :
    (QB.init mcSample).find [("eager", .str "foo")] none
        = .ok { QB.init mcSample with eagerExprs := [.str "foo"] } ∧
    ({ QB.init mcSample with eagerExprs := [.str "foo"] } : QB).applyDefaultEager = true ∧
    ({ QB.init mcSample with eagerExprs := [.str "foo"] } : QB).execute.eagerExprs
        = [.str "foo", .str "bar"] :=
  ⟨rfl, rfl, rfl⟩

/-- C2 (amended): the `eager` query parameter merges (never replaces) into the
accumulated eager expression but does not mark the plan explicitly eager —
only the `eager()`/`clearEager()` methods flip `_applyDefaultEager` — so the
model's default eager expression is still merged at execute; the default
eager and order are applied at execute exactly for a find query with no
selects whose corresponding flag was never flipped and whose model class
defines them. -/
theorem c2_eager_merge_and_defaults :
    (∀ (qb : QB) (v : JSVal), jsTruthy v = true →
      queryHandlers.eager qb v = qb.mergeEager v) ∧
    (∀ (qb : QB) (v : JSVal),
      (queryHandlers.eager qb v).applyDefaultEager = qb.applyDefaultEager) ∧
    (∀ (qb : QB) (v : JSVal), jsTruthy v = true →
      (queryHandlers.eager qb v).eagerExprs = qb.eagerExprs ++ [v]) ∧
    (∀ qb : QB, (qb.eager (.str "x")).applyDefaultEager = false) ∧
    (∀ qb : QB, qb.clearEager.applyDefaultEager = false) ∧
    (∀ (qb : QB) (de : String), qb.isFind = true → qb.hasSel = false →
      qb.applyDefaultEager = true → qb.modelCls.defaultEager = some de →
      qb.execute.eagerExprs = qb.eagerExprs ++ [.str de]) ∧
    (∀ qb : QB, qb.applyDefaultEager = false →
      qb.execute.eagerExprs = qb.eagerExprs) ∧
    (∀ qb : QB, qb.isFind = false ∨ qb.hasSel = true →
      qb.execute.eagerExprs = qb.eagerExprs) ∧
    (∀ (qb : QB) (ord : List JSVal), qb.isFind = true → qb.hasSel = false →
      qb.applyDefaultOrder = true → qb.modelCls.defaultOrder = some ord →
      qb.execute.ops = qb.ops ++ [.orderBy ord] ++ qb.scopes.map .applyScopeFilter) ∧
    (∀ qb : QB, qb.applyDefaultOrder = false →
      qb.execute.ops = qb.ops ++ qb.scopes.map .applyScopeFilter) := by
  refine ⟨?_, ?_, ?_, fun qb => rfl, fun qb => rfl, ?_, ?_, ?_, ?_, ?_⟩
  · intro qb v hv
    simp [queryHandlers.eager, hv]
  · intro qb v
    by_cases hv : jsTruthy v = true
    · simp [queryHandlers.eager, hv, QB.mergeEager]
    · simp at hv
      simp [queryHandlers.eager, hv]
  · intro qb v hv
    simp [queryHandlers.eager, hv, QB.mergeEager]
  · intro qb de h1 h2 h3 h4
    simp only [QB.execute, h1, h2, h3, h4]
    cases ho : qb.modelCls.defaultOrder with
    | none => simp [QB.mergeEager, ho]
    | some ord =>
      by_cases hdo : qb.applyDefaultOrder
      · simp [QB.mergeEager, QB.orderBy, ho, hdo]
      · simp at hdo
        simp [QB.mergeEager, QB.orderBy, ho, hdo]
  · intro qb h
    simp only [QB.execute, h]
    by_cases hf : qb.isFind && !qb.hasSel
    · simp only [hf, if_true]
      cases he : qb.modelCls.defaultEager with
      | none =>
        cases ho : qb.modelCls.defaultOrder with
        | none => simp [he, ho]
        | some ord =>
          by_cases hdo : qb.applyDefaultOrder
          · simp [QB.orderBy, he, ho, hdo]
          · simp at hdo
            simp [QB.orderBy, he, ho, hdo]
      | some de =>
        cases ho : qb.modelCls.defaultOrder with
        | none => simp [he, ho, h]
        | some ord =>
          by_cases hdo : qb.applyDefaultOrder
          · simp [QB.orderBy, he, ho, hdo, h]
          · simp at hdo
            simp [QB.orderBy, he, ho, hdo, h]
    · simp only [hf, if_false]
      simp
  · intro qb h
    have hf : (qb.isFind && !qb.hasSel) = false := by
      rcases h with h | h <;> simp [h]
    simp [QB.execute, hf]
  · intro qb ord h1 h2 h3 h4
    simp only [QB.execute, h1, h2, h4, h3]
    cases he : qb.modelCls.defaultEager with
    | none =>
      simp [QB.orderBy, he, h3, h4]
    | some de =>
      by_cases hde : qb.applyDefaultEager
      · simp [QB.mergeEager, QB.orderBy, he, hde, h3, h4]
      · simp at hde
        simp [QB.mergeEager, QB.orderBy, he, hde, h3, h4]
  · intro qb h
    simp only [QB.execute]
    by_cases hf : qb.isFind && !qb.hasSel
    · simp only [hf, if_true]
      cases he : qb.modelCls.defaultEager with
      | none =>
        cases ho : qb.modelCls.defaultOrder with
        | none => simp [he, ho]
        | some ord => simp [QB.mergeEager, he, ho, h]
      | some de =>
        by_cases hde : qb.applyDefaultEager
        · cases ho : qb.modelCls.defaultOrder with
          | none => simp [QB.mergeEager, he, ho, hde]
          | some ord => simp [QB.mergeEager, he, ho, hde, h]
        · simp at hde
          cases ho : qb.modelCls.defaultOrder with
          | none => simp [QB.mergeEager, he, ho, hde]
          | some ord => simp [QB.mergeEager, he, ho, hde, h]
    · simp only [hf, if_false]
      simp

/-- A concrete run of `c2_eager_merge_and_defaults`: the handler merges and
the default is still applied afterwards. -/
theorem c2_witness :
    jsTruthy (.str "foo") = true ∧
    queryHandlers.eager (QB.init mcSample) (.str "foo")
      = (QB.init mcSample).mergeEager (.str "foo") :=
  ⟨by decide, c2_eager_merge_and_defaults.1 (QB.init mcSample) (.str "foo") (by decide)⟩

/-- C10: `findOne` prepends `where`, `eager`, `scope`, `pick`, `omit` to the
caller's allow-list before delegating to `find` and taking the first row, so
the effective allow-list is a union — a caller-supplied allow-list can never
exclude these five keys, and `findOne` can never raise the not-allowed error
for any of them. -/
theorem c10_findOne_allowed_union :
    (∀ (a : Option (List String)) (k : String),
      (findOneAllowed a).contains k
        = (["where", "eager", "scope", "pick", "omit"].contains k
            || (a.getD []).contains k)) ∧
    (∀ (qb : QB) (q : List (String × JSVal)) (a : Option (List String)),
      qb.findOne q a = (qb.find q (some (findOneAllowed a))).map
        (fun qb2 => { qb2 with ops := qb2.ops ++ [.first] })) ∧
    (∀ (qb : QB) (q : List (String × JSVal)) (a : Option (List String)) (k : String),
      (["where", "eager", "scope", "pick", "omit"] : List String).contains k = true →
      qb.findOne q a ≠ .error (.notAllowed k)) := by
  have h1 : ∀ (a : Option (List String)) (k : String),
      (findOneAllowed a).contains k
        = (["where", "eager", "scope", "pick", "omit"].contains k
            || (a.getD []).contains k) := by
    intro a k
    by_cases hk : k ∈ (["where", "eager", "scope", "pick", "omit"] : List String) <;>
      by_cases hk3 : k ∈ a.getD [] <;>
      simp [findOneAllowed, hk, hk3] <;>
      simp at hk <;>
      tauto
  have h2 : ∀ (qb : QB) (q : List (String × JSVal)) (a : Option (List String)),
      qb.findOne q a = (qb.find q (some (findOneAllowed a))).map
        (fun qb2 => { qb2 with ops := qb2.ops ++ [.first] }) := by
    intro qb q a
    unfold QB.findOne
    cases hf : qb.find q (some (findOneAllowed a)) with
    | error e => simp [hf, Bind.bind, Except.bind, Except.map]
    | ok qb2 => simp [hf, Bind.bind, Except.bind, Except.map]
  refine ⟨h1, h2, ?_⟩
  intro qb q a k hk h
  rw [h2 qb q a] at h
  cases hf : qb.find q (some (findOneAllowed a)) with
  | ok qb2 => rw [hf] at h; simp [Except.map] at h
  | error e =>
    rw [hf] at h
    simp [Except.map] at h
    subst h
    obtain ⟨l, hl, hc⟩ := find_notAllowed_gate qb q (some (findOneAllowed a)) k hf
    injection hl with hl
    rw [← hl] at hc
    rw [h1 a k] at hc
    simp at hk hc
    tauto

/-- A concrete run of `c10_findOne_allowed_union`: `eager` cannot be excluded
by the caller's allow-list. -/
theorem c10_witness :
    (["where", "eager", "scope", "pick", "omit"] : List String).contains "eager" = true ∧
    (QB.init mcSample).findOne [("eager", .str "foo")] (some ["name"])
      ≠ .error (.notAllowed "eager") :=
  ⟨by decide, c10_findOne_allowed_union.2.2 (QB.init mcSample)
    [("eager", .str "foo")] (some ["name"]) "eager" (by decide)⟩

/-- C5: `shouldRelate` on the root relation path returns false for every
configuration of overrides and global options — including global
`relate: true` — and `processRelates` on a root model node therefore always
takes the full-clone branch: all plain properties are kept, every relation
field is recursively processed rather than stripped, and the
removed-relations map is only ever extended through the children, never with
an entry for the root node itself. -/
theorem c5_root_never_relates :
    (∀ cfg : RelCfg, shouldRelate cfg "" = false) ∧
    (∀ (cfg : RelCfg) (m : RemMap) (props : List (String × JSVal))
        (rels : List (String × GData)) (dataPath : String),
      processRelates cfg m (.model props rels) "" dataPath
        = (.model props (processRelatesRels cfg m rels "" dataPath).1,
           (processRelatesRels cfg m rels "" dataPath).2)) := by
  constructor
  · intro cfg
    simp [shouldRelate]
  · intro cfg m props rels dataPath
    simp [processRelates, shouldRelate]

theorem str_data_inj {p q : String} (h : p.data = q.data) : p = q := by
  cases p
  cases q
  exact congrArg String.mk h

theorem chars_last_seg : ∀ (a : List Char) (b w1 w2 : List Char),
    '/' ∉ w1 → '/' ∉ w2 → a ++ '/' :: w1 = b ++ '/' :: w2 → a = b ∧ w1 = w2 := by
  intro a
  induction a with
  | nil =>
    intro b w1 w2 h1 h2 h
    cases b with
    | nil =>
      simp at h
      exact ⟨rfl, h⟩
    | cons c b2 =>
      simp at h
      obtain ⟨hc, hw⟩ := h
      subst hc
      subst hw
      exact absurd (by simp : '/' ∈ b2 ++ '/' :: w2) h1
  | cons c a2 ih =>
    intro b w1 w2 h1 h2 h
    cases b with
    | nil =>
      simp at h
      obtain ⟨hc, hw⟩ := h
      subst hc
      rw [← hw] at h2
      exact absurd (by simp : '/' ∈ a2 ++ '/' :: w1) h2
    | cons d b2 =>
      simp at h
      obtain ⟨hc, hw⟩ := h
      subst hc
      obtain ⟨hab, hw12⟩ := ih b2 w1 w2 h1 h2 hw
      exact ⟨by rw [hab], hw12⟩

theorem goodTok_ne_empty {t : String} (h : goodTok t = true) : t ≠ "" := by
  simp [goodTok] at h
  exact h.1

theorem goodTok_no_slash {t : String} (h : goodTok t = true) : '/' ∉ t.data := by
  simp [goodTok] at h
  simpa using h.2

theorem str_ne_empty_iff (s : String) : s ≠ "" ↔ s.data ≠ [] := by
  constructor
  · intro h hc
    exact h (str_data_inj (by simpa using hc))
  · intro h hc
    subst hc
    exact h rfl

theorem append_slash_data (p t : String) :
    (p ++ "/" ++ t).data = p.data ++ '/' :: t.data := by
  rw [String.data_append, String.data_append]
  simp

theorem str_last_seg {p q t u : String} (ht : goodTok t = true) (hu : goodTok u = true)
    (h : p ++ "/" ++ t = q ++ "/" ++ u) : p = q ∧ t = u := by
  have hd : p.data ++ '/' :: t.data = q.data ++ '/' :: u.data := by
    rw [← append_slash_data, ← append_slash_data, h]
  obtain ⟨h1, h2⟩ := chars_last_seg p.data q.data t.data u.data
    (goodTok_no_slash ht) (goodTok_no_slash hu) hd
  exact ⟨str_data_inj h1, str_data_inj h2⟩

theorem slash_append_ne_good {p t u : String} (hu : goodTok u = true) :
    u ≠ p ++ "/" ++ t := by
  intro hc
  have := goodTok_no_slash hu
  rw [hc] at this
  rw [append_slash_data] at this
  simp at this

theorem joinTokens_nil : joinTokens [] = "" := rfl

theorem joinTokens_snoc (ts : List String) (t : String) :
    joinTokens (ts ++ [t]) = appendPath (joinTokens ts) "/" t := by
  simp [joinTokens, List.foldl_append]

theorem appendPathTokens_append (dp : String) (ts us : List String) :
    appendPathTokens dp (ts ++ us) = appendPathTokens (appendPathTokens dp ts) us := by
  simp [appendPathTokens, List.foldl_append]

theorem joinTokens_eq_appendPathTokens (ts : List String) :
    joinTokens ts = appendPathTokens "" ts := rfl

theorem joinTokens_ne_empty : ∀ (ts : List String), ts ≠ [] →
    (∀ t ∈ ts, goodTok t = true) → joinTokens ts ≠ "" := by
  intro ts
  induction ts using List.reverseRecOn with
  | nil => intro h; exact absurd rfl h
  | append_singleton ts t ih =>
    intro _ hgood
    rw [joinTokens_snoc]
    unfold appendPath
    split
    · rw [str_ne_empty_iff]
      rw [append_slash_data]
      simp
    · exact goodTok_ne_empty (hgood t (by simp))

theorem joinTokens_inj : ∀ (ts us : List String),
    (∀ t ∈ ts, goodTok t = true) → (∀ t ∈ us, goodTok t = true) →
    joinTokens ts = joinTokens us → ts = us := by
  intro ts
  induction ts using List.reverseRecOn with
  | nil =>
    intro us hts hus h
    cases hu : us.reverse with
    | nil => simpa using congrArg List.reverse hu
    | cons u rest =>
      have : us = rest.reverse ++ [u] := by
        have := congrArg List.reverse hu
        simpa using this
      subst this
      exact absurd h.symm (joinTokens_ne_empty _ (by simp) hus)
  | append_singleton as a iha =>
    intro us hts hus h
    cases hu : us.reverse with
    | nil =>
      have : us = [] := by simpa using congrArg List.reverse hu
      subst this
      exact absurd h (joinTokens_ne_empty _ (by simp) hts)
    | cons u rest =>
      have hus2 : us = rest.reverse ++ [u] := by
        have := congrArg List.reverse hu
        simpa using this
      subst hus2
      rw [joinTokens_snoc, joinTokens_snoc] at h
      have ha : goodTok a = true := hts a (by simp)
      have hu2 : goodTok u = true := hus u (by simp)
      have hts2 : ∀ t ∈ as, goodTok t = true := fun t ht => hts t (by simp [ht])
      have hus3 : ∀ t ∈ rest.reverse, goodTok t = true :=
        fun t ht => hus t (by simp [ht])
      unfold appendPath at h
      by_cases hae : joinTokens as = ""
      · have has : as = [] := by
          by_contra hc
          exact joinTokens_ne_empty as hc hts2 hae
        by_cases hue : joinTokens rest.reverse = ""
        · have hrs : rest.reverse = [] := by
            by_contra hc
            exact joinTokens_ne_empty _ hc hus3 hue
          rw [if_neg (by simp [hae]), if_neg (by simp [hue])] at h
          rw [has, hrs, h]
        · rw [if_neg (by simp [hae]), if_pos (by simp [hue])] at h
          exact absurd h (slash_append_ne_good ha)
      · by_cases hue : joinTokens rest.reverse = ""
        · rw [if_pos (by simp [hae]), if_neg (by simp [hue])] at h
          exact absurd h.symm (slash_append_ne_good hu2)
        · rw [if_pos (by simp [hae]), if_pos (by simp [hue])] at h
          obtain ⟨h1, h2⟩ := str_last_seg ha hu2 h
          rw [iha rest.reverse hts2 hus3 h1, h2]

theorem digitChar_facts : ∀ k < 10, (Nat.digitChar k).isDigit = true ∧
    Nat.digitChar k ≠ '/' ∧ (Nat.digitChar k).toNat - '0'.toNat = k := by decide

theorem natDigits_toDigitsCore : ∀ (fuel n : Nat) (acc : List Char), n < fuel →
    Nat.toDigitsCore 10 fuel n acc = natDigits n ++ acc := by
  intro fuel
  induction fuel with
  | zero => intro n acc h; omega
  | succ f ih =>
    intro n acc h
    rw [Nat.toDigitsCore]
    by_cases h10 : n / 10 = 0
    · simp only [h10, if_true]
      rw [natDigits, if_pos h10]
      simp
    · simp only [h10, if_false]
      have hlt : n / 10 < f := by
        have h1 : 0 < n := by omega
        have := Nat.div_lt_self h1 (by omega : 1 < 10)
        omega
      rw [ih (n / 10) _ hlt]
      conv_rhs => rw [natDigits]
      rw [if_neg h10]
      simp

theorem toString_nat_data (n : Nat) : (toString n).data = natDigits n := by
  show (Nat.repr n).data = natDigits n
  rw [Nat.repr]
  show Nat.toDigits 10 n = natDigits n
  rw [Nat.toDigits]
  rw [natDigits_toDigitsCore (n + 1) n [] (by omega)]
  simp

theorem natDigits_all_digits : ∀ (n : Nat), ∀ c ∈ natDigits n, c.isDigit = true := by
  intro n
  induction n using Nat.strong_induction_on with
  | _ n ih =>
    intro c hc
    rw [natDigits] at hc
    by_cases h10 : n / 10 = 0
    · rw [if_pos h10] at hc
      simp at hc
      subst hc
      exact (digitChar_facts (n % 10) (by omega)).1
    · rw [if_neg h10] at hc
      simp at hc
      rcases hc with hc | hc
      · have h1 : 0 < n := by omega
        exact ih (n / 10) (Nat.div_lt_self h1 (by omega)) c hc
      · subst hc
        exact (digitChar_facts (n % 10) (by omega)).1

theorem natDigits_ne_nil (n : Nat) : natDigits n ≠ [] := by
  rw [natDigits]
  by_cases h10 : n / 10 = 0
  · simp [h10]
  · simp [h10]

theorem goodTok_toString_nat (n : Nat) : goodTok (toString n) = true := by
  have h1 : toString n ≠ "" := by
    rw [str_ne_empty_iff, toString_nat_data]
    exact natDigits_ne_nil n
  have h2 : '/' ∉ (toString n).data := by
    rw [toString_nat_data]
    intro hc
    have := natDigits_all_digits n '/' hc
    simp [Char.isDigit] at this
  simp [goodTok, h1, h2]

theorem parseDigits_append : ∀ (xs ys : List Char) (acc : Nat),
    parseDigits (xs ++ ys) acc
      = match parseDigits xs acc with
        | some a => parseDigits ys a
        | none => none := by
  intro xs
  induction xs with
  | nil => intro ys acc; simp [parseDigits]
  | cons c rest ih =>
    intro ys acc
    by_cases hd : c.isDigit
    · simp [parseDigits, hd, ih]
    · simp [parseDigits, hd]

theorem parseDigits_natDigits : ∀ (n : Nat), ∀ (acc : Nat),
    parseDigits (natDigits n) acc = some (acc * 10 ^ (natDigits n).length + n) := by
  intro n
  induction n using Nat.strong_induction_on with
  | _ n ih =>
    intro acc
    rw [natDigits]
    by_cases h10 : n / 10 = 0
    · rw [if_pos h10]
      have hf := digitChar_facts (n % 10) (by omega)
      simp only [parseDigits, hf.1, if_true]
      rw [hf.2.2]
      simp only [List.length_cons, List.length_nil, pow_one, Option.some.injEq]
      omega
    · rw [if_neg h10]
      have h1 : 0 < n := by omega
      rw [parseDigits_append]
      rw [ih (n / 10) (Nat.div_lt_self h1 (by omega)) acc]
      have hf := digitChar_facts (n % 10) (by omega)
      simp only [parseDigits, hf.1, if_true]
      rw [hf.2.2]
      simp only [List.length_append, List.length_cons, List.length_nil,
        Option.some.injEq]
      have hexp : (natDigits (n / 10)).length + (0 + 1) = (natDigits (n / 10)).length + 1 := by
        omega
      rw [hexp, pow_succ]
      have hr : (acc * 10 ^ (natDigits (n / 10)).length + n / 10) * 10 + n % 10
          = acc * (10 ^ (natDigits (n / 10)).length * 10) + (n / 10 * 10 + n % 10) := by
        ring
      rw [hr]
      have hdm : n / 10 * 10 + n % 10 = n := by omega
      rw [hdm]

theorem parsePathToken_toString (n : Nat) : parsePathToken (toString n) = some n := by
  unfold parsePathToken
  rw [if_neg (by rw [toString_nat_data]; exact natDigits_ne_nil n)]
  rw [toString_nat_data, parseDigits_natDigits n 0]
  simp

theorem toString_nat_inj {m n : Nat} (h : toString m = toString n) : m = n := by
  have h1 := parsePathToken_toString m
  rw [h, parsePathToken_toString n] at h1
  injection h1 with h1
  exact h1.symm

theorem mk_data (t : String) : String.mk t.data = t := by
  cases t
  rfl

theorem str_append_assoc (a b c : String) : (a ++ b) ++ c = a ++ (b ++ c) :=
  str_data_inj (by simp [String.data_append])

theorem splitJsAux_flag (l : List Char) : ∀ (acc : List Char) (b1 b2 : Bool),
    splitJsAux '/' (fun _ => false) (fun t => t) l acc b1
      = splitJsAux '/' (fun _ => false) (fun t => t) l acc b2 := by
  induction l with
  | nil => intro acc b1 b2; rfl
  | cons c rest ih =>
    intro acc b1 b2
    by_cases hc : c = '/'
    · simp [splitJsAux, hc, ih]
    · simp [splitJsAux, hc, ih]

theorem splitJsAux_no_slash (l : List Char) : ∀ (acc : List Char) (b : Bool),
    '/' ∉ l →
    splitJsAux '/' (fun _ => false) (fun t => t) l acc b = [acc.reverse ++ l] := by
  induction l with
  | nil => intro acc b _; simp [splitJsAux]
  | cons c rest ih =>
    intro acc b hl
    have hc : ¬c = '/' := fun hc => hl (by simp [hc])
    simp only [splitJsAux, hc, if_false, Bool.and_false]
    rw [ih (c :: acc) false (fun hm => hl (by simp [hm]))]
    simp

theorem splitJsAux_slash_split (l1 : List Char) : ∀ (l2 acc : List Char) (b : Bool),
    '/' ∉ l1 →
    splitJsAux '/' (fun _ => false) (fun t => t) (l1 ++ '/' :: l2) acc b
      = (acc.reverse ++ l1) ::
        splitJsAux '/' (fun _ => false) (fun t => t) l2 [] true := by
  induction l1 with
  | nil =>
    intro l2 acc b _
    simp [splitJsAux]
  | cons c rest ih =>
    intro l2 acc b hl
    have hc : ¬c = '/' := fun hc => hl (by simp [hc])
    rw [List.cons_append]
    simp only [splitJsAux, hc, if_false, Bool.and_false]
    rw [ih l2 (c :: acc) false (fun hm => hl (by simp [hm]))]
    simp

theorem joinTokens_cons (t : String) (ts : List String) (htg : goodTok t = true)
    (hts : ∀ u ∈ ts, goodTok u = true) (hne : ts ≠ []) :
    joinTokens (t :: ts) = t ++ "/" ++ joinTokens ts := by
  induction ts using List.reverseRecOn with
  | nil => exact absurd rfl hne
  | append_singleton us u ih =>
    by_cases hus : us = []
    · subst hus
      simp only [List.nil_append]
      have hjt : joinTokens [t] = t := by simp [joinTokens, appendPath]
      have hju : joinTokens [u] = u := by simp [joinTokens, appendPath]
      have h2 : joinTokens (t :: [u]) = appendPath (joinTokens [t]) "/" u := by
        rw [show (t :: [u]) = [t] ++ [u] from rfl, joinTokens_snoc]
      rw [h2, hjt, hju]
      unfold appendPath
      rw [if_pos (by simp [goodTok_ne_empty htg])]
    · have hts2 : ∀ w ∈ us, goodTok w = true := fun w hw => hts w (by simp [hw])
      rw [show t :: (us ++ [u]) = (t :: us) ++ [u] from rfl]
      rw [joinTokens_snoc, joinTokens_snoc]
      rw [ih hts2 hus]
      have hjne : joinTokens us ≠ "" := joinTokens_ne_empty us hus hts2
      unfold appendPath
      rw [if_pos (by
          rw [str_ne_empty_iff, append_slash_data]
          simp),
        if_pos (by simp [hjne])]
      apply str_data_inj
      simp [String.data_append]

theorem splitPath_joinTokens : ∀ (ts : List String), ts ≠ [] →
    (∀ t ∈ ts, goodTok t = true) → splitPath (joinTokens ts) = ts := by
  intro ts
  induction ts with
  | nil => intro h; exact absurd rfl h
  | cons t rest ih =>
    intro _ hts
    have htg : goodTok t = true := hts t (by simp)
    by_cases hrne : rest = []
    · subst hrne
      have hjt : joinTokens [t] = t := by simp [joinTokens, appendPath]
      rw [hjt]
      unfold splitPath splitJs
      rw [splitJsAux_no_slash t.data [] false (goodTok_no_slash htg)]
      simp [mk_data]
    · have hts2 : ∀ u ∈ rest, goodTok u = true := fun u hu => hts u (by simp [hu])
      rw [joinTokens_cons t rest htg hts2 hrne]
      unfold splitPath splitJs
      have hdata : (t ++ "/" ++ joinTokens rest).data
          = t.data ++ '/' :: (joinTokens rest).data := append_slash_data t (joinTokens rest)
      rw [hdata]
      rw [splitJsAux_slash_split t.data (joinTokens rest).data [] false
        (goodTok_no_slash htg)]
      rw [splitJsAux_flag (joinTokens rest).data [] true false]
      have hih := ih hrne hts2
      unfold splitPath splitJs at hih
      simp only [List.map_cons, List.reverse_nil, List.nil_append, mk_data]
      rw [hih]

theorem insertEntries_append (m : RemMap) (l1 l2 : List (String × List (String × GData))) :
    insertEntries m (l1 ++ l2) = insertEntries (insertEntries m l1) l2 := by
  simp [insertEntries, List.foldl_append]

theorem absEntries_append (dp : String) (l1 l2 : List (List String × List (String × GData))) :
    absEntries dp (l1 ++ l2) = absEntries dp l1 ++ absEntries dp l2 := by
  simp [absEntries]

theorem absEntries_pref (dp n : String) (l : List (List String × List (String × GData))) :
    absEntries dp (l.map (fun e => (n :: e.1, e.2)))
      = absEntries (appendPath dp "/" n) l := by
  simp only [absEntries, List.map_map]
  rfl

theorem bridgeRels_aux (cfg : RelCfg) (rels : List (String × GData))
    (ihp : ∀ n v, (n, v) ∈ rels → ∀ (m : RemMap) (rp dp : String),
      processRelates cfg m v rp dp
        = (pdata cfg v rp, insertEntries m (absEntries dp (entriesT cfg v rp)))) :
    ∀ (m : RemMap) (rp dp : String),
      processRelatesRels cfg m rels rp dp
        = (pdataRels cfg rels rp,
           insertEntries m (absEntries dp (entriesTRels cfg rels rp))) := by
  induction rels with
  | nil =>
    intro m rp dp
    simp [processRelatesRels, pdataRels, entriesTRels, absEntries, insertEntries]
  | cons nv rest ih =>
    intro m rp dp
    obtain ⟨n, v⟩ := nv
    simp only [processRelatesRels, pdataRels, entriesTRels]
    rw [ihp n v (by simp) m (appendPath rp "." n) (appendPath dp "/" n)]
    rw [ih (fun n2 v2 hm => ihp n2 v2 (List.mem_cons_of_mem _ hm))]
    rw [absEntries_append, insertEntries_append, absEntries_pref]

theorem bridgeElems_aux (cfg : RelCfg) (es : List GData)
    (ihp : ∀ v, v ∈ es → ∀ (m : RemMap) (rp dp : String),
      processRelates cfg m v rp dp
        = (pdata cfg v rp, insertEntries m (absEntries dp (entriesT cfg v rp)))) :
    ∀ (m : RemMap) (rp dp : String) (i : Nat),
      processRelatesElems cfg m es rp dp i
        = (pdataElems cfg es rp,
           insertEntries m (absEntries dp (entriesTElems cfg es rp i))) := by
  induction es with
  | nil =>
    intro m rp dp i
    simp [processRelatesElems, pdataElems, entriesTElems, absEntries, insertEntries]
  | cons e rest ih =>
    intro m rp dp i
    simp only [processRelatesElems, pdataElems, entriesTElems]
    rw [ihp e (by simp) m rp (appendPath dp "/" (toString i))]
    rw [ih (fun v2 hm => ihp v2 (List.mem_cons_of_mem _ hm))]
    rw [absEntries_append, insertEntries_append, absEntries_pref]

theorem processRelates_bridge (cfg : RelCfg) :
    ∀ (d : GData) (m : RemMap) (rp dp : String),
      processRelates cfg m d rp dp
        = (pdata cfg d rp, insertEntries m (absEntries dp (entriesT cfg d rp))) := by
  intro d
  induction d using GData.myInd with
  | hscalar v =>
    intro m rp dp
    simp [processRelates, pdata, entriesT, absEntries, insertEntries]
  | harr es ihp =>
    intro m rp dp
    simp only [processRelates, pdata, entriesT]
    rw [bridgeElems_aux cfg es ihp m rp dp 0]
  | hmodel props rels ihp =>
    intro m rp dp
    by_cases hrel : shouldRelate cfg rp = true
    · simp only [processRelates, pdata, entriesT, hrel, if_true]
      by_cases hres : cfg.restore = true
      · by_cases hemp : rels.isEmpty = true
        · simp [hres, hemp, insertEntries, absEntries]
        · simp only [Bool.not_eq_true] at hemp
          simp [hres, hemp, insertEntries, absEntries, appendPathTokens]
      · simp only [Bool.not_eq_true] at hres
        simp [hres, insertEntries, absEntries]
    · simp only [Bool.not_eq_true] at hrel
      simp only [processRelates, pdata, entriesT, hrel, if_false]
      rw [bridgeRels_aux cfg rels ihp m rp dp]
      simp

theorem distinctTokens_spec : ∀ (ks : List String), distinctTokens ks = true →
    ks.Nodup ∧ ∀ k ∈ ks, goodTok k = true := by
  intro ks
  induction ks with
  | nil => intro _; exact ⟨List.nodup_nil, by simp⟩
  | cons k rest ih =>
    intro h
    simp only [distinctTokens, Bool.and_eq_true] at h
    obtain ⟨⟨hg, hnc⟩, hrest⟩ := h
    obtain ⟨hnd, hgood⟩ := ih hrest
    refine ⟨List.nodup_cons.mpr ⟨?_, hnd⟩, ?_⟩
    · intro hc
      simp at hnc
      exact absurd hc (by simpa using hnc)
    · intro k2 hk2
      rcases List.mem_cons.mp hk2 with h2 | h2
      · subst h2; exact hg
      · exact hgood k2 h2

theorem entriesTRels_heads (cfg : RelCfg) :
    ∀ (rels : List (String × GData)) (rp : String) (e : List String × List (String × GData)),
      e ∈ entriesTRels cfg rels rp →
      ∃ n us, e.1 = n :: us ∧ n ∈ rels.map Prod.fst := by
  intro rels
  induction rels with
  | nil => intro rp e h; simp [entriesTRels] at h
  | cons nv rest ih =>
    intro rp e h
    obtain ⟨n, v⟩ := nv
    simp only [entriesTRels, List.mem_append] at h
    rcases h with h | h
    · simp only [List.mem_map] at h
      obtain ⟨e2, _, he⟩ := h
      exact ⟨n, e2.1, by rw [← he], by simp⟩
    · obtain ⟨n2, us, h1, h2⟩ := ih rp e h
      exact ⟨n2, us, h1, by simp [List.mem_map] at h2 ⊢; tauto⟩

theorem entriesTElems_heads (cfg : RelCfg) :
    ∀ (es : List GData) (rp : String) (i : Nat) (e : List String × List (String × GData)),
      e ∈ entriesTElems cfg es rp i →
      ∃ j us, i ≤ j ∧ e.1 = toString j :: us := by
  intro es
  induction es with
  | nil => intro rp i e h; simp [entriesTElems] at h
  | cons v rest ih =>
    intro rp i e h
    simp only [entriesTElems, List.mem_append] at h
    rcases h with h | h
    · simp only [List.mem_map] at h
      obtain ⟨e2, _, he⟩ := h
      exact ⟨i, e2.1, le_refl i, by rw [← he]⟩
    · obtain ⟨j, us, h1, h2⟩ := ih rp (i + 1) e h
      exact ⟨j, us, by omega, h2⟩

theorem wfRels_mem : ∀ (rels : List (String × GData)), wfRels rels = true →
    ∀ n v, (n, v) ∈ rels → wfG v = true := by
  intro rels
  induction rels with
  | nil => intro _ n v h; simp at h
  | cons nv rest ih =>
    intro hw n v h
    obtain ⟨n', v'⟩ := nv
    simp only [wfRels, Bool.and_eq_true] at hw
    rcases List.mem_cons.mp h with h2 | h2
    · cases h2; exact hw.1
    · exact ih hw.2 n v h2

theorem wfElems_mem : ∀ (es : List GData), wfElems es = true →
    ∀ v ∈ es, wfG v = true := by
  intro es
  induction es with
  | nil => intro _ v h; simp at h
  | cons e rest ih =>
    intro hw v h
    simp only [wfElems, Bool.and_eq_true] at hw
    rcases List.mem_cons.mp h with h2 | h2
    · subst h2; exact hw.1
    · exact ih hw.2 v h2

theorem entriesTRels_good_aux (cfg : RelCfg) :
    ∀ (rels : List (String × GData)),
      (∀ n v, (n, v) ∈ rels → ∀ rp, ∀ e ∈ entriesT cfg v rp, ∀ t ∈ e.1, goodTok t = true) →
      (∀ n ∈ rels.map Prod.fst, goodTok n = true) →
      ∀ rp, ∀ e ∈ entriesTRels cfg rels rp, ∀ t ∈ e.1, goodTok t = true := by
  intro rels
  induction rels with
  | nil => intro _ _ rp e he; simp [entriesTRels] at he
  | cons nv rest ihr =>
    obtain ⟨n, v⟩ := nv
    intro ih hnames rp e he t ht
    simp only [entriesTRels, List.mem_append] at he
    rcases he with he | he
    · simp only [List.mem_map] at he
      obtain ⟨e2, he2, heq⟩ := he
      rw [← heq] at ht
      simp only [List.mem_cons] at ht
      rcases ht with rfl | ht
      · exact hnames t (by simp)
      · exact ih n v (by simp) _ e2 he2 t ht
    · exact ihr (fun n2 v2 h => ih n2 v2 (List.mem_cons_of_mem _ h))
        (fun n2 h => hnames n2 (by simp only [List.map_cons, List.mem_cons]; right; exact h))
        rp e he t ht

theorem entriesTElems_good_aux (cfg : RelCfg) :
    ∀ (es : List GData),
      (∀ v ∈ es, ∀ rp, ∀ e ∈ entriesT cfg v rp, ∀ t ∈ e.1, goodTok t = true) →
      ∀ rp i, ∀ e ∈ entriesTElems cfg es rp i, ∀ t ∈ e.1, goodTok t = true := by
  intro es
  induction es with
  | nil => intro _ rp i e he; simp [entriesTElems] at he
  | cons v rest ihr =>
    intro ih rp i e he t ht
    simp only [entriesTElems, List.mem_append] at he
    rcases he with he | he
    · simp only [List.mem_map] at he
      obtain ⟨e2, he2, heq⟩ := he
      rw [← heq] at ht
      simp only [List.mem_cons] at ht
      rcases ht with rfl | ht
      · exact goodTok_toString_nat i
      · exact ih v (by simp) _ e2 he2 t ht
    · exact ihr (fun v2 h => ih v2 (List.mem_cons_of_mem _ h)) rp (i + 1) e he t ht

theorem entriesT_good (cfg : RelCfg) :
    ∀ d, wfG d = true → ∀ rp, ∀ e ∈ entriesT cfg d rp, ∀ t ∈ e.1, goodTok t = true := by
  intro d
  induction d using GData.myInd with
  | hmodel props rels ih =>
    intro hw rp e he t ht
    simp only [wfG, Bool.and_eq_true] at hw
    obtain ⟨hd, hwr⟩ := hw
    obtain ⟨_, hgood⟩ := distinctTokens_spec _ hd
    simp only [entriesT] at he
    split at he
    · split at he
      · simp only [List.mem_singleton] at he
        rw [he] at ht; simp at ht
      · simp at he
    · exact entriesTRels_good_aux cfg rels
        (fun n v hv => ih n v hv (wfRels_mem rels hwr n v hv))
        hgood rp e he t ht
  | harr es ih =>
    intro hw rp e he t ht
    simp only [wfG] at hw
    simp only [entriesT] at he
    exact entriesTElems_good_aux cfg es
      (fun v hv => ih v hv (wfElems_mem es hw v hv)) rp 0 e he t ht
  | hscalar v =>
    intro _ rp e he
    simp [entriesT] at he

theorem entriesTRels_nodup_aux (cfg : RelCfg) :
    ∀ (rels : List (String × GData)),
      (∀ n v, (n, v) ∈ rels → ∀ rp, ((entriesT cfg v rp).map Prod.fst).Nodup) →
      (rels.map Prod.fst).Nodup →
      ∀ rp, ((entriesTRels cfg rels rp).map Prod.fst).Nodup := by
  intro rels
  induction rels with
  | nil => intro _ _ rp; simp [entriesTRels]
  | cons nv rest ihr =>
    obtain ⟨n, v⟩ := nv
    intro ih hnd rp
    simp only [List.map_cons, List.nodup_cons] at hnd
    simp only [entriesTRels, List.map_append, List.map_map]
    rw [List.nodup_append]
    refine ⟨?_, ?_, ?_⟩
    · have h1 : ((entriesT cfg v (appendPath rp "." n)).map Prod.fst).Nodup :=
        ih n v (by simp) _
      have h2 : (Prod.fst ∘ fun e : List String × List (String × GData) =>
          ((n :: e.1 : List String), e.2)) = fun e => n :: e.1 := rfl
      rw [h2]
      have h3 : (fun e : List String × List (String × GData) => n :: e.1) =
          (fun us => n :: us) ∘ Prod.fst := rfl
      rw [h3, ← List.map_map]
      exact h1.map (fun a b h => by simpa using h)
    · exact ihr (fun n2 v2 h => ih n2 v2 (List.mem_cons_of_mem _ h)) hnd.2 rp
    · intro p hp hp2
      simp only [List.mem_map, Function.comp] at hp
      obtain ⟨e2, _, heq⟩ := hp
      simp only [List.mem_map] at hp2
      obtain ⟨e3, he3, heq3⟩ := hp2
      obtain ⟨n2, us2, hsh, hmem⟩ := entriesTRels_heads cfg rest rp e3 he3
      rw [← heq3, hsh] at heq
      have : n = n2 := by
        have := congrArg (fun l => List.headD l "") heq
        simpa using this
      exact hnd.1 (this ▸ hmem)

theorem entriesTElems_nodup_aux (cfg : RelCfg) :
    ∀ (es : List GData),
      (∀ v ∈ es, ∀ rp, ((entriesT cfg v rp).map Prod.fst).Nodup) →
      ∀ rp i, ((entriesTElems cfg es rp i).map Prod.fst).Nodup := by
  intro es
  induction es with
  | nil => intro _ rp i; simp [entriesTElems]
  | cons v rest ihr =>
    intro ih rp i
    simp only [entriesTElems, List.map_append, List.map_map]
    rw [List.nodup_append]
    refine ⟨?_, ?_, ?_⟩
    · have h1 : ((entriesT cfg v rp).map Prod.fst).Nodup := ih v (by simp) _
      have h3 : (Prod.fst ∘ fun e : List String × List (String × GData) =>
          ((toString i :: e.1 : List String), e.2)) = (fun us => toString i :: us) ∘ Prod.fst :=
        rfl
      rw [h3, ← List.map_map]
      exact h1.map (fun a b h => by simpa using h)
    · exact ihr (fun v2 h => ih v2 (List.mem_cons_of_mem _ h)) rp (i + 1)
    · intro p hp hp2
      simp only [List.mem_map, Function.comp] at hp
      obtain ⟨e2, _, heq⟩ := hp
      simp only [List.mem_map] at hp2
      obtain ⟨e3, he3, heq3⟩ := hp2
      obtain ⟨j, us2, hij, hsh⟩ := entriesTElems_heads cfg rest rp (i + 1) e3 he3
      rw [← heq3, hsh] at heq
      have hts : toString i = toString j := by
        have := congrArg (fun l => List.headD l "") heq
        simpa using this
      have := toString_nat_inj hts
      omega

theorem entriesT_nodup (cfg : RelCfg) :
    ∀ d, wfG d = true → ∀ rp, ((entriesT cfg d rp).map Prod.fst).Nodup := by
  intro d
  induction d using GData.myInd with
  | hmodel props rels ih =>
    intro hw rp
    simp only [wfG, Bool.and_eq_true] at hw
    obtain ⟨hd, hwr⟩ := hw
    obtain ⟨hnd, _⟩ := distinctTokens_spec _ hd
    simp only [entriesT]
    split
    · split <;> simp
    · exact entriesTRels_nodup_aux cfg rels
        (fun n v hv => ih n v hv (wfRels_mem rels hwr n v hv)) hnd rp
  | harr es ih =>
    intro hw rp
    simp only [wfG] at hw
    simp only [entriesT]
    exact entriesTElems_nodup_aux cfg es
      (fun v hv => ih v hv (wfElems_mem es hw v hv)) rp 0
  | hscalar v => intro _ rp; simp [entriesT]

theorem insertAssoc_not_mem {α : Type} :
    ∀ (m : List (String × α)) (k : String) (v : α), k ∉ m.map Prod.fst →
      insertAssoc m k v = m ++ [(k, v)] := by
  intro m
  induction m with
  | nil => intro k v _; rfl
  | cons kv rest ih =>
    intro k v h
    obtain ⟨k', v'⟩ := kv
    simp only [List.map_cons, List.mem_cons] at h
    push_neg at h
    simp only [insertAssoc, if_neg (Ne.symm h.1)]
    rw [ih k v h.2]
    simp

theorem insertAssoc_mem_self {α : Type} :
    ∀ (m : List (String × α)) (k : String) (v : α), (k, v) ∈ m →
      (m.map Prod.fst).Nodup → insertAssoc m k v = m := by
  intro m
  induction m with
  | nil => intro k v h; simp at h
  | cons kv rest ih =>
    intro k v h hnd
    obtain ⟨k', v'⟩ := kv
    simp only [List.map_cons, List.nodup_cons] at hnd
    by_cases he : k' = k
    · subst he
      simp only [insertAssoc, if_pos rfl]
      rcases List.mem_cons.mp h with h2 | h2
      · cases h2; rfl
      · exact absurd (List.mem_map.mpr ⟨(k', v), h2, rfl⟩) hnd.1
    · simp only [insertAssoc, if_neg he]
      rcases List.mem_cons.mp h with h2 | h2
      · cases h2; exact absurd rfl he
      · rw [ih k v h2 hnd.2]

theorem insertFold_fresh {α : Type} :
    ∀ (l m : List (String × α)), (l.map Prod.fst).Nodup →
      (∀ k ∈ l.map Prod.fst, k ∉ m.map Prod.fst) →
      l.foldl (fun acc kv => insertAssoc acc kv.1 kv.2) m = m ++ l := by
  intro l
  induction l with
  | nil => intro m _ _; simp
  | cons kv rest ih =>
    intro m hnd hdisj
    simp only [List.map_cons, List.nodup_cons] at hnd
    simp only [List.foldl_cons]
    rw [insertAssoc_not_mem m kv.1 kv.2 (hdisj kv.1 (by simp))]
    rw [ih (m ++ [kv]) hnd.2 ?_]
    · simp
    · intro k hk
      simp only [List.map_append, List.mem_append, List.map_cons]
      push_neg
      constructor
      · exact hdisj k (by simp only [List.map_cons, List.mem_cons]; right; exact hk)
      · simp only [List.map_nil, List.mem_cons, List.not_mem_nil, or_false]
        intro hkk
        exact hnd.1 (hkk ▸ hk)

theorem insertFold_self {α : Type} :
    ∀ (l m : List (String × α)), (∀ e ∈ l, e ∈ m) → (m.map Prod.fst).Nodup →
      l.foldl (fun acc kv => insertAssoc acc kv.1 kv.2) m = m := by
  intro l
  induction l with
  | nil => intro m _ _; simp
  | cons kv rest ih =>
    intro m hmem hnd
    simp only [List.foldl_cons]
    have h1 : insertAssoc m kv.1 kv.2 = m :=
      insertAssoc_mem_self m kv.1 kv.2 (by have := hmem kv (by simp); simpa using this) hnd
    rw [h1]
    exact ih m (fun e he => hmem e (List.mem_cons_of_mem _ he)) hnd

theorem insertEntries_fresh (l m : List (String × List (String × GData)))
    (hnd : (l.map Prod.fst).Nodup) (hdisj : ∀ k ∈ l.map Prod.fst, k ∉ m.map Prod.fst) :
    insertEntries m l = m ++ l :=
  insertFold_fresh l m hnd hdisj

theorem insertEntries_self (l m : List (String × List (String × GData)))
    (hmem : ∀ e ∈ l, e ∈ m) (hnd : (m.map Prod.fst).Nodup) :
    insertEntries m l = m :=
  insertFold_self l m hmem hnd

theorem absEntries_keys (dp : String) (l : List (List String × List (String × GData))) :
    (absEntries dp l).map Prod.fst = (l.map Prod.fst).map (appendPathTokens dp) := by
  simp [absEntries, List.map_map]

theorem absEntries_nil_keys_nodup (l : List (List String × List (String × GData)))
    (hnd : (l.map Prod.fst).Nodup)
    (hgood : ∀ p ∈ l.map Prod.fst, ∀ t ∈ p, goodTok t = true) :
    ((absEntries "" l).map Prod.fst).Nodup := by
  rw [absEntries_keys]
  apply List.Nodup.map_on ?_ hnd
  intro p hp q hq h
  rw [← joinTokens_eq_appendPathTokens, ← joinTokens_eq_appendPathTokens] at h
  exact joinTokens_inj p q (hgood p hp) (hgood q hq) h

theorem navUpdateRels_eq (f : GData → GData) :
    ∀ (R : List (String × GData)) (t : String) (ts : List String),
      navUpdateRels f R t ts = updRel R t (fun v => navUpdate f v ts) := by
  intro R
  induction R with
  | nil => intro t ts; simp [navUpdateRels, updRel]
  | cons nv rest ih =>
    intro t ts
    obtain ⟨n, v⟩ := nv
    by_cases h : n = t
    · simp [navUpdateRels, updRel, h, ih]
    · simp [navUpdateRels, updRel, h, ih]

theorem navUpdateElems_eq (f : GData → GData) :
    ∀ (es : List GData) (i : Nat) (ts : List String),
      navUpdateElems f es i ts = updIdx es i (fun v => navUpdate f v ts) := by
  intro es
  induction es with
  | nil => intro i ts; simp [navUpdateElems, updIdx]
  | cons e rest ih =>
    intro i ts
    cases i with
    | zero => simp [navUpdateElems, updIdx]
    | succ j => simp [navUpdateElems, updIdx, ih]

theorem updRel_id : ∀ (R : List (String × GData)) (t : String),
    updRel R t (fun v => v) = R := by
  intro R t
  induction R with
  | nil => rfl
  | cons nv rest ih =>
    obtain ⟨n, v⟩ := nv
    simp only [updRel, List.map_cons] at ih ⊢
    rw [ih]
    by_cases h : n = t <;> simp [h]

theorem updRel_compose (R : List (String × GData)) (t : String) (g1 g2 : GData → GData) :
    updRel (updRel R t g1) t g2 = updRel R t (fun v => g2 (g1 v)) := by
  induction R with
  | nil => rfl
  | cons nv rest ih =>
    obtain ⟨n, v⟩ := nv
    simp only [updRel, List.map_cons] at ih ⊢
    rw [ih]
    by_cases h : n = t <;> simp [h]

theorem updRel_append (X Y : List (String × GData)) (t : String) (g : GData → GData) :
    updRel (X ++ Y) t g = updRel X t g ++ updRel Y t g := by
  simp [updRel]

theorem updRel_not_mem (R : List (String × GData)) (t : String) (g : GData → GData)
    (h : t ∉ R.map Prod.fst) : updRel R t g = R := by
  induction R with
  | nil => rfl
  | cons nv rest ih =>
    simp only [List.map_cons, List.mem_cons] at h
    push_neg at h
    simp only [updRel, List.map_cons] at ih ⊢
    rw [if_neg (Ne.symm h.1), ih h.2]

theorem updIdx_id : ∀ (es : List GData) (i : Nat), updIdx es i (fun v => v) = es := by
  intro es
  induction es with
  | nil => intro i; rfl
  | cons e rest ih =>
    intro i
    cases i with
    | zero => rfl
    | succ j => simp [updIdx, ih]

theorem updIdx_compose : ∀ (es : List GData) (i : Nat) (g1 g2 : GData → GData),
    updIdx (updIdx es i g1) i g2 = updIdx es i (fun v => g2 (g1 v)) := by
  intro es
  induction es with
  | nil => intro i g1 g2; rfl
  | cons e rest ih =>
    intro i g1 g2
    cases i with
    | zero => rfl
    | succ j => simp [updIdx, ih]

theorem updIdx_append (pre : List GData) (x : GData) (l : List GData) (g : GData → GData) :
    updIdx (pre ++ x :: l) pre.length g = pre ++ g x :: l := by
  induction pre with
  | nil => rfl
  | cons p rest ih => simp [updIdx, ih]

theorem pdataRels_names (cfg : RelCfg) :
    ∀ (rels : List (String × GData)) (rp : String),
      (pdataRels cfg rels rp).map Prod.fst = rels.map Prod.fst := by
  intro rels
  induction rels with
  | nil => intro rp; simp [pdataRels]
  | cons nv rest ih =>
    intro rp
    obtain ⟨n, v⟩ := nv
    simp [pdataRels, ih]

theorem restoreT_cons (e : List String × List (String × GData))
    (es : List (List String × List (String × GData))) (d : GData) :
    restoreT (e :: es) d = restoreT es (navUpdate (setRels e.2) d e.1) := rfl

theorem restoreT_append (l1 l2 : List (List String × List (String × GData))) (d : GData) :
    restoreT (l1 ++ l2) d = restoreT l2 (restoreT l1 d) := by
  simp [restoreT, List.foldl_append]

theorem restoreT_model_group (t : String) :
    ∀ (es : List (List String × List (String × GData)))
      (P : List (String × JSVal)) (R : List (String × GData)),
      restoreT (es.map (fun e => (t :: e.1, e.2))) (.model P R)
        = .model P (updRel R t (fun v => restoreT es v)) := by
  intro es
  induction es with
  | nil =>
    intro P R
    simp only [List.map_nil]
    show GData.model P R = GData.model P (updRel R t (fun v => v))
    rw [updRel_id]
  | cons e rest ih =>
    intro P R
    simp only [List.map_cons]
    rw [restoreT_cons]
    show restoreT (rest.map (fun e => (t :: e.1, e.2)))
        (navUpdate (setRels e.2) (.model P R) (t :: e.1))
      = GData.model P (updRel R t (fun v => restoreT (e :: rest) v))
    have h1 : navUpdate (setRels e.2) (.model P R) (t :: e.1)
        = .model P (updRel R t (fun v => navUpdate (setRels e.2) v e.1)) := by
      simp [navUpdate, navUpdateRels_eq]
    rw [h1, ih, updRel_compose]
    rfl

theorem restoreT_arr_group (i : Nat) :
    ∀ (es : List (List String × List (String × GData))) (L : List GData),
      restoreT (es.map (fun e => (toString i :: e.1, e.2))) (.arr L)
        = .arr (updIdx L i (fun v => restoreT es v)) := by
  intro es
  induction es with
  | nil =>
    intro L
    simp only [List.map_nil]
    show GData.arr L = GData.arr (updIdx L i (fun v => v))
    rw [updIdx_id]
  | cons e rest ih =>
    intro L
    simp only [List.map_cons]
    rw [restoreT_cons]
    have h1 : navUpdate (setRels e.2) (.arr L) (toString i :: e.1)
        = .arr (updIdx L i (fun v => navUpdate (setRels e.2) v e.1)) := by
      simp [navUpdate, parsePathToken_toString, navUpdateElems_eq]
    rw [h1, ih, updIdx_compose]
    rfl

theorem restoreT_relsGen (cfg : RelCfg) :
    ∀ (rels : List (String × GData)),
      (∀ n v, (n, v) ∈ rels → ∀ rp, restoreT (entriesT cfg v rp) (pdata cfg v rp) = v) →
      ∀ (pre : List (String × GData)) (props : List (String × JSVal)) (rp : String),
        ((pre ++ rels).map Prod.fst).Nodup →
        restoreT (entriesTRels cfg rels rp) (.model props (pre ++ pdataRels cfg rels rp))
          = .model props (pre ++ rels) := by
  intro rels
  induction rels with
  | nil =>
    intro _ pre props rp _
    simp [entriesTRels, pdataRels, restoreT]
  | cons nv rest ih =>
    obtain ⟨n, v⟩ := nv
    intro ihc pre props rp hnd
    have hnd2 : (pre.map Prod.fst ++ n :: rest.map Prod.fst).Nodup := by simpa using hnd
    rw [List.nodup_append] at hnd2
    obtain ⟨hpre, hcons, hdisj⟩ := hnd2
    rw [List.nodup_cons] at hcons
    have hnpre : n ∉ pre.map Prod.fst := fun h => hdisj h (by simp)
    simp only [entriesTRels, pdataRels]
    rw [restoreT_append]
    rw [restoreT_model_group n (entriesT cfg v (appendPath rp "." n)) props
      (pre ++ (n, pdata cfg v (appendPath rp "." n)) :: pdataRels cfg rest rp)]
    rw [updRel_append, updRel_not_mem pre n _ hnpre]
    have hupd : updRel ((n, pdata cfg v (appendPath rp "." n)) :: pdataRels cfg rest rp) n
        (fun w => restoreT (entriesT cfg v (appendPath rp "." n)) w)
        = (n, v) :: pdataRels cfg rest rp := by
      simp only [updRel, List.map_cons, if_pos]
      rw [ihc n v (by simp) (appendPath rp "." n)]
      congr 1
      show updRel (pdataRels cfg rest rp) n
        (fun w => restoreT (entriesT cfg v (appendPath rp "." n)) w) = pdataRels cfg rest rp
      apply updRel_not_mem
      rw [pdataRels_names]
      exact hcons.1
    rw [hupd]
    have hsplit : pre ++ (n, v) :: pdataRels cfg rest rp
        = (pre ++ [(n, v)]) ++ pdataRels cfg rest rp := by simp
    rw [hsplit]
    rw [ih (fun n2 v2 h => ihc n2 v2 (List.mem_cons_of_mem _ h)) (pre ++ [(n, v)]) props rp
      (by simpa using hnd)]
    simp

theorem restoreT_elemsGen (cfg : RelCfg) :
    ∀ (es : List GData),
      (∀ v ∈ es, ∀ rp, restoreT (entriesT cfg v rp) (pdata cfg v rp) = v) →
      ∀ (pre : List GData) (rp : String),
        restoreT (entriesTElems cfg es rp pre.length) (.arr (pre ++ pdataElems cfg es rp))
          = .arr (pre ++ es) := by
  intro es
  induction es with
  | nil =>
    intro _ pre rp
    simp [entriesTElems, pdataElems, restoreT]
  | cons e rest ih =>
    intro ihc pre rp
    simp only [entriesTElems, pdataElems]
    rw [restoreT_append]
    rw [restoreT_arr_group pre.length (entriesT cfg e rp)
      (pre ++ pdata cfg e rp :: pdataElems cfg rest rp)]
    rw [updIdx_append]
    rw [ihc e (by simp) rp]
    have hsplit : pre ++ e :: pdataElems cfg rest rp
        = (pre ++ [e]) ++ pdataElems cfg rest rp := by simp
    rw [hsplit]
    have hlen : pre.length + 1 = (pre ++ [e]).length := by simp
    rw [hlen]
    rw [ih (fun v2 h => ihc v2 (List.mem_cons_of_mem _ h)) (pre ++ [e]) rp]
    simp

theorem restoreT_entriesT (cfg : RelCfg) (hres : cfg.restore = true) :
    ∀ d, wfG d = true → ∀ rp, restoreT (entriesT cfg d rp) (pdata cfg d rp) = d := by
  intro d
  induction d using GData.myInd with
  | hmodel props rels ih =>
    intro hw rp
    simp only [wfG, Bool.and_eq_true] at hw
    obtain ⟨hd, hwr⟩ := hw
    obtain ⟨hnd, _⟩ := distinctTokens_spec _ hd
    simp only [entriesT, pdata]
    by_cases hr : shouldRelate cfg rp = true
    · rw [if_pos hr, if_pos hr, hres]
      by_cases hre : rels.isEmpty
      · simp only [hre, Bool.true_and, Bool.not_true, if_false]
        rw [List.isEmpty_iff] at hre
        simp [restoreT, hre]
      · simp only [Bool.true_and]
        have hre2 : rels.isEmpty = false := by simpa using hre
        simp only [hre2, Bool.not_false, if_true]
        rw [restoreT_cons]
        show restoreT [] (setRels rels (.model props [])) = GData.model props rels
        simp only [restoreT, List.foldl_nil, setRels]
        rw [insertFold_fresh rels [] hnd (by simp)]
        simp
    · rw [if_neg hr, if_neg hr]
      have := restoreT_relsGen cfg rels
        (fun n v hv => ih n v hv (wfRels_mem rels hwr n v hv)) [] props rp
        (by simpa using hnd)
      simpa using this
  | harr es ih =>
    intro hw rp
    simp only [wfG] at hw
    simp only [entriesT, pdata]
    have := restoreT_elemsGen cfg es
      (fun v hv => ih v hv (wfElems_mem es hw v hv)) [] rp
    simpa using this
  | hscalar v => intro _ rp; simp [entriesT, pdata, restoreT]

theorem restoreOne_nav (ds : List GData) (vals : List (String × GData))
    (t : String) (us : List String) (hg : ∀ x ∈ t :: us, goodTok x = true) :
    GData.arr (restoreOne ds (joinTokens (t :: us)) vals)
      = navUpdate (setRels vals) (.arr ds) (t :: us) := by
  unfold restoreOne
  rw [splitPath_joinTokens (t :: us) (by simp) hg]
  simp only [navUpdate]
  cases parsePathToken t <;> simp

theorem restoreFold_nav :
    ∀ (entries : List (List String × List (String × GData))) (ds : List GData),
      (∀ e ∈ entries, e.1 ≠ [] ∧ ∀ t ∈ e.1, goodTok t = true) →
      GData.arr ((absEntries "" entries).foldl (fun ds e => restoreOne ds e.1 e.2) ds)
        = restoreT entries (.arr ds) := by
  intro entries
  induction entries with
  | nil => intro ds _; simp [absEntries, restoreT]
  | cons e rest ih =>
    intro ds hgood
    obtain ⟨hne, hg⟩ := hgood e (by simp)
    cases hts : e.1 with
    | nil => exact absurd hts hne
    | cons t us =>
      simp only [absEntries, List.map_cons, List.foldl_cons]
      have hjoin : appendPathTokens "" e.1 = joinTokens e.1 :=
        (joinTokens_eq_appendPathTokens e.1).symm
      rw [restoreT_cons]
      rw [show (absEntries "" rest) = absEntries "" rest from rfl] at *
      have hstep : GData.arr (restoreOne ds (appendPathTokens "" e.1) e.2)
          = navUpdate (setRels e.2) (.arr ds) e.1 := by
        rw [hjoin, hts]
        exact restoreOne_nav ds e.2 t us (hts ▸ hg)
      obtain ⟨ds2, hds2⟩ : ∃ ds2, navUpdate (setRels e.2) (.arr ds) e.1 = .arr ds2 := by
        rw [hts]
        simp only [navUpdate]
        cases parsePathToken t
        · exact ⟨ds, rfl⟩
        · exact ⟨_, rfl⟩
      have hone : restoreOne ds (appendPathTokens "" e.1) e.2 = ds2 := by
        have := hstep.trans hds2
        injection this
      rw [hone, hds2]
      exact ih ds2 (fun e2 he2 => hgood e2 (List.mem_cons_of_mem _ he2))

theorem pureBelowRels_pdata (cfg : RelCfg) (rels : List (String × GData))
    (ihm : ∀ n v, (n, v) ∈ rels → ∀ rp, pureBelow cfg v rp = true →
      pdata cfg v rp = v ∧ entriesT cfg v rp = []) :
    ∀ rp, pureBelowRels cfg rels rp = true →
      pdataRels cfg rels rp = rels ∧ entriesTRels cfg rels rp = [] := by
  induction rels with
  | nil => intro rp _; simp [pdataRels, entriesTRels]
  | cons nv rest ih =>
    obtain ⟨n, v⟩ := nv
    intro rp hp
    simp only [pureBelowRels, Bool.and_eq_true] at hp
    obtain ⟨h1, h2⟩ := ihm n v (by simp) _ hp.1
    obtain ⟨h3, h4⟩ := ih (fun n2 v2 hm => ihm n2 v2 (List.mem_cons_of_mem _ hm)) rp hp.2
    simp [pdataRels, entriesTRels, h1, h2, h3, h4]

theorem pureBelowElems_pdata (cfg : RelCfg) (es : List GData)
    (ihm : ∀ v ∈ es, ∀ rp, pureBelow cfg v rp = true →
      pdata cfg v rp = v ∧ entriesT cfg v rp = []) :
    ∀ rp i, pureBelowElems cfg es rp = true →
      pdataElems cfg es rp = es ∧ entriesTElems cfg es rp i = [] := by
  induction es with
  | nil => intro rp i _; simp [pdataElems, entriesTElems]
  | cons e rest ih =>
    intro rp i hp
    simp only [pureBelowElems, Bool.and_eq_true] at hp
    obtain ⟨h1, h2⟩ := ihm e (by simp) _ hp.1
    obtain ⟨h3, h4⟩ := ih (fun v2 hm => ihm v2 (List.mem_cons_of_mem _ hm)) rp (i + 1) hp.2
    simp [pdataElems, entriesTElems, h1, h2, h3, h4]

theorem pureBelow_pdata (cfg : RelCfg) :
    ∀ d rp, pureBelow cfg d rp = true →
      pdata cfg d rp = d ∧ entriesT cfg d rp = [] := by
  intro d
  induction d using GData.myInd with
  | hmodel props rels ih =>
    intro rp hp
    simp only [pureBelow, Bool.and_eq_true] at hp
    have hrel : shouldRelate cfg rp = false := by
      have := hp.1; cases h : shouldRelate cfg rp
      · rfl
      · rw [h] at this; simp at this
    obtain ⟨h1, h2⟩ := pureBelowRels_pdata cfg rels (fun n v hm => ih n v hm) rp hp.2
    simp [pdata, entriesT, hrel, h1, h2]
  | harr es ih =>
    intro rp hp
    simp only [pureBelow] at hp
    obtain ⟨h1, h2⟩ := pureBelowElems_pdata cfg es (fun v hm => ih v hm) rp 0 hp
    simp [pdata, entriesT, h1, h2]
  | hscalar v => intro rp _; simp [pdata, entriesT]

theorem getData_closed_form (g : GPState) (hres : g.restore = true) :
    g.getData = (if g.isArr then GData.arr (pdataElems g.relCfg g.data "")
      else (pdataElems g.relCfg g.data "").headD (.scalar .undef),
      { g with removed := insertEntries g.removed (absEntries "" (entriesT g.relCfg (.arr g.data) "")) }) := by
  simp only [GPState.getData, hres, if_true, processRelates_bridge, pdata]

/-- C9: On one processor instance (freshly constructed, so with an empty
removed-relations map, and fed well-formed graph data), repeated calls to
`getData()` and `getOptions()` return stable, structurally identical results:
the second `getData()` returns the same data as the first and leaves the
instance state fixed, `getOptions()` is unaffected by `getData()`, and the
caller-supplied input graph held in the instance is never replaced or
altered by either call. -/
theorem c9_getData_getOptions_stable (g : GPState)
    (hfresh : g.removed = []) (hwf : wfElems g.data = true) :
    g.getData.2.getData.1 = g.getData.1 ∧
    g.getData.2.getData.2 = g.getData.2 ∧
    g.getData.2.data = g.data ∧
    g.getData.2.getOptions = g.getOptions := by
  by_cases hres : g.restore = true
  · have hwfA : wfG (.arr g.data) = true := by simp [wfG, hwf]
    have hgood : ∀ p ∈ (entriesT g.relCfg (.arr g.data) "").map Prod.fst,
        ∀ t ∈ p, goodTok t = true := by
      intro p hp t ht
      obtain ⟨e, he, heq⟩ := List.mem_map.mp hp
      exact entriesT_good g.relCfg (.arr g.data) hwfA "" e he t (heq ▸ ht)
    have hnd := entriesT_nodup g.relCfg (.arr g.data) hwfA ""
    have hkeys := absEntries_nil_keys_nodup _ hnd hgood
    have hins1 : insertEntries g.removed
        (absEntries "" (entriesT g.relCfg (.arr g.data) ""))
        = absEntries "" (entriesT g.relCfg (.arr g.data) "") := by
      rw [hfresh, insertEntries_fresh _ _ hkeys (by simp)]
      simp
    have hins2 : insertEntries
        (absEntries "" (entriesT g.relCfg (.arr g.data) ""))
        (absEntries "" (entriesT g.relCfg (.arr g.data) ""))
        = absEntries "" (entriesT g.relCfg (.arr g.data) "") :=
      insertEntries_self _ _ (fun e he => he) hkeys
    have h1 := getData_closed_form g hres
    rw [hins1] at h1
    have h2 := getData_closed_form
      { g with removed := absEntries "" (entriesT g.relCfg (.arr g.data) "") } hres
    have hrc : ({ g with removed := absEntries "" (entriesT g.relCfg (.arr g.data) "") } : GPState).relCfg = g.relCfg := rfl
    rw [hrc] at h2
    dsimp only at h2
    rw [hins2] at h2
    rw [h1]
    dsimp only
    rw [h2]
    exact ⟨rfl, rfl, rfl, rfl⟩
  · have hres2 : g.restore = false := by simpa using hres
    have h0 : g.getData
        = (if g.isArr then .arr g.data else g.data.headD (.scalar .undef), g) := by
      simp [GPState.getData, hres2]
    rw [h0]
    dsimp only
    rw [h0]
    exact ⟨rfl, rfl, rfl, rfl⟩

/-- C9 witness: the stability conjunction holds at a concrete freshly
constructed processor over a small well-formed graph. -/
theorem c9_witness :
    gwC9.removed = [] ∧ wfElems gwC9.data = true ∧
    (gwC9.getData.2.getData.1 = gwC9.getData.1 ∧
     gwC9.getData.2.getData.2 = gwC9.getData.2 ∧
     gwC9.getData.2.data = gwC9.data ∧
     gwC9.getData.2.getOptions = gwC9.getOptions) :=
  ⟨rfl, by simp [gwC9, wfElems, wfG, wfRels, distinctTokens, goodTok],
   c9_getData_getOptions_stable gwC9 rfl
     (by simp [gwC9, wfElems, wfG, wfRels, distinctTokens, goodTok])⟩

/-- C1: Graph write round-trip for a processor with relation restoration on.
(1) Every model node whose relation path is marked for relate is reduced by
`processRelates` to a shallow clone with its relation fields removed, the
removed relation values being recorded in the removed-relations map under
the node's structural data path (when there are any); (2) a relation path
that the collected relate overrides map to false is never marked for relate;
(3) a subtree none of whose nodes is marked for relate passes through
`processRelates` with its full data, recording nothing; and (4) feeding the
write result of `getData()` to `restoreRelations` reassigns every recorded
relation value at its recorded structural path, reproducing the original
input graph exactly. -/
theorem c1_graph_roundtrip (g : GPState)
    (hres : g.restore = true) (hfresh : g.removed = [])
    (hwf : wfElems g.data = true) (harr : g.isArr = true) :
    (∀ (m : RemMap) (props : List (String × JSVal)) (rels : List (String × GData))
        (rp dp : String), shouldRelate g.relCfg rp = true →
        processRelates g.relCfg m (.model props rels) rp dp
          = (.model props [], if rels.isEmpty then m else insertAssoc m dp rels)) ∧
    (∀ (rp : String) (l : List String), g.relCfg.relateOverrides = some l →
        l.contains rp = false → shouldRelate g.relCfg rp = false) ∧
    (∀ (d : GData) (rp : String) (m : RemMap) (dp : String),
        pureBelow g.relCfg d rp = true → processRelates g.relCfg m d rp dp = (d, m)) ∧
    g.getData.2.restoreRelations g.getData.1 = .arr g.data := by
  refine ⟨?_, ?_, ?_, ?_⟩
  · intro m props rels rp dp hrel
    have hcr : g.relCfg.restore = true := hres
    simp only [processRelates, hrel, if_true, hcr]
  · intro rp l hl hc
    by_cases he : rp = ""
    · simp [shouldRelate, he]
    · have hc2 : rp ∉ l := by simpa using hc
      simp [shouldRelate, he, hl, hc2]
  · intro d rp m dp hp
    obtain ⟨h1, h2⟩ := pureBelow_pdata g.relCfg d rp hp
    rw [processRelates_bridge, h1, h2]
    simp [absEntries, insertEntries]
  · have hwfA : wfG (.arr g.data) = true := by simp [wfG, hwf]
    have hgoodE : ∀ e ∈ entriesT g.relCfg (.arr g.data) "", ∀ t ∈ e.1, goodTok t = true :=
      fun e he t ht => entriesT_good g.relCfg (.arr g.data) hwfA "" e he t ht
    have hgood : ∀ p ∈ (entriesT g.relCfg (.arr g.data) "").map Prod.fst,
        ∀ t ∈ p, goodTok t = true := by
      intro p hp t ht
      obtain ⟨e, he, heq⟩ := List.mem_map.mp hp
      exact hgoodE e he t (heq ▸ ht)
    have hnd := entriesT_nodup g.relCfg (.arr g.data) hwfA ""
    have hkeys := absEntries_nil_keys_nodup _ hnd hgood
    have hins1 : insertEntries g.removed
        (absEntries "" (entriesT g.relCfg (.arr g.data) ""))
        = absEntries "" (entriesT g.relCfg (.arr g.data) "") := by
      rw [hfresh, insertEntries_fresh _ _ hkeys (by simp)]
      simp
    have h1 := getData_closed_form g hres
    rw [hins1] at h1
    rw [h1]
    dsimp only
    simp only [harr, if_true]
    have hconds : ∀ e ∈ entriesT g.relCfg (.arr g.data) "",
        e.1 ≠ [] ∧ ∀ t ∈ e.1, goodTok t = true := by
      intro e he
      refine ⟨?_, hgoodE e he⟩
      have he2 : e ∈ entriesTElems g.relCfg g.data "" 0 := by
        simpa [entriesT] using he
      obtain ⟨j, us, _, hsh⟩ := entriesTElems_heads g.relCfg g.data "" 0 e he2
      rw [hsh]
      simp
    have hpd : pdata g.relCfg (.arr g.data) "" = .arr (pdataElems g.relCfg g.data "") := by
      simp [pdata]
    have hrt : restoreT (entriesT g.relCfg (.arr g.data) "")
        (.arr (pdataElems g.relCfg g.data "")) = .arr g.data := by
      rw [← hpd]
      exact restoreT_entriesT g.relCfg hres (.arr g.data) hwfA ""
    simp only [GPState.restoreRelations]
    rw [restoreFold_nav (entriesT g.relCfg (.arr g.data) "")
      (pdataElems g.relCfg g.data "") hconds]
    exact hrt

/-- C1 witness: the round-trip conjunction holds at a concrete processor
whose options set `relate` globally over a two-level entity graph. -/
theorem c1_witness :
    gwC1.restore = true ∧ gwC1.removed = [] ∧ wfElems gwC1.data = true ∧
    gwC1.isArr = true ∧
    gwC1.getData.2.restoreRelations gwC1.getData.1 = .arr gwC1.data :=
  ⟨rfl, rfl, by simp [gwC1, wfElems, wfG, wfRels, distinctTokens, goodTok], rfl,
   (c1_graph_roundtrip gwC1 rfl rfl
     (by simp [gwC1, wfElems, wfG, wfRels, distinctTokens, goodTok]) rfl).2.2.2⟩
